import Mathlib

/-!
# Template registry of `mdhender/mailer`

A shallow embedding of `templates.go` (`NewTemplate`, `Dir`, `Ext`, `Funcs`,
`Load`, `Render`) together with the parts of the Go standard library the code
calls (`path/filepath`, `strings`, `html/template`), on a Unix file system.
Strings are lists of characters (one per byte of the Go string); the file system is a
finite tree.
-/

set_option autoImplicit false

namespace Mailer

/-- Go strings, as lists of characters. -/
abbrev Str := List Char

/-- The path separator `filepath.Separator` on Unix. -/
def Separator : Char := '/'

/-- Errors returned by the operating system, the path library and the template engine. -/
inductive Error where
  /-- An operating-system error (`Lstat`, `readDirNames`, `ReadFile`, `Getwd`). -/
  | io (code : Nat)
  /-- The error of `filepath.Rel`: "Rel: can't make targ relative to base". -/
  | rel (base targ : Str)
  /-- A syntax error reported by `Parse`. -/
  | parse (src : Str)
  /-- The parse error "function %q not defined". -/
  | undefinedFunc (name : Str)
  /-- The lookup error of `ExecuteTemplate` ("%q is undefined" or "%q is an incomplete template"). -/
  | noTemplate (name : Str)
  /-- An execution-time error. -/
  | exec (code : Nat)
  /-- A construct outside the fragment of the template language that `miniEngine` covers. -/
  | unsupported (what : Str)
  deriving DecidableEq, Repr

deriving instance DecidableEq for Except

/-! ## `strings` -/

/-- The function `strings.HasSuffix`. -/
def HasSuffix (s suffix : Str) : Bool :=
  decide (suffix.length ≤ s.length) && (s.drop (s.length - suffix.length) == suffix)

/-- The function `strings.TrimSuffix`: `s` without the trailing `suffix`, or `s` itself. -/
def TrimSuffix (s suffix : Str) : Str :=
  if HasSuffix s suffix then s.take (s.length - suffix.length) else s

/-! ## `path/filepath` -/

/-- The backwards scan of `filepath.Ext` over the reversed path: stop at a separator,
return from the first dot met. -/
def extScan : Str → Str → Str
  | [], _ => []
  | c :: rest, acc =>
    if c = Separator then []
    else if c = '.' then c :: acc
    else extScan rest (c :: acc)

/-- The function `filepath.Ext`: the suffix beginning at the final dot in the final
element of `path`; empty if there is no dot. -/
def Ext (path : Str) : Str := extScan path.reverse []

/-- The function `filepath.IsAbs` on Unix. -/
def IsAbs (path : Str) : Bool := path.head? == some Separator

/-- Where the scanner of `filepath.Clean` stands: at the start of a path element, inside
an element being copied, or on the second dot of a `..` element. -/
inductive CleanMode where
  | start
  | copy
  | skip
  deriving DecidableEq, Repr

/-- The step `out.w--; for out.w > dotdot && out.index(out.w) != '/' { out.w-- }` of
`filepath.Clean`, on the reversed output buffer. -/
def cleanBackup (dotdot : Nat) : Str → Str
  | [] => []
  | c :: rest => if dotdot < rest.length ∧ c ≠ Separator then cleanBackup dotdot rest else rest

/-- The main loop of `filepath.Clean`. `out` is the output buffer reversed, `dotdot` the
index below which the buffer may not be backed up. -/
def cleanLoop (rooted : Bool) : CleanMode → Str → Str → Nat → Str
  | _, [], out, _ => out
  | .skip, _ :: tl, out, dotdot => cleanLoop rooted .start tl out dotdot
  | .copy, c :: tl, out, dotdot =>
    if c = Separator then cleanLoop rooted .start tl out dotdot
    else cleanLoop rooted .copy tl (c :: out) dotdot
  | .start, c :: tl, out, dotdot =>
    if c = Separator then
      -- empty path element
      cleanLoop rooted .start tl out dotdot
    else if c = '.' ∧ (tl = [] ∨ tl.head? = some Separator) then
      -- . element
      cleanLoop rooted .start tl out dotdot
    else if c = '.' ∧ tl.head? = some '.' ∧ (tl.tail = [] ∨ tl.tail.head? = some Separator) then
      -- .. element: remove to last separator
      if dotdot < out.length then
        cleanLoop rooted .skip tl (cleanBackup dotdot out) dotdot
      else if ¬ rooted then
        let out1 := if 0 < out.length then Separator :: out else out
        cleanLoop rooted .skip tl ('.' :: '.' :: out1) (out1.length + 2)
      else
        cleanLoop rooted .skip tl out dotdot
    else
      -- real path element: add slash if needed, then copy the element
      let out1 :=
        if (rooted ∧ out.length ≠ 1) ∨ (¬ rooted ∧ out.length ≠ 0) then Separator :: out else out
      cleanLoop rooted .copy tl (c :: out1) dotdot

/-- The function `filepath.Clean` on Unix. -/
def Clean (path : Str) : Str :=
  match path with
  | [] => ['.']
  | c :: tl =>
    let rooted := decide (c = Separator)
    let out :=
      if rooted then cleanLoop true .start tl [Separator] 1
      else cleanLoop false .start (c :: tl) [] 0
    if out = [] then ['.'] else out.reverse

/-- The function `filepath.Join` for two elements: empty elements are ignored, the rest
is joined by the separator and cleaned. -/
def Join (a b : Str) : Str :=
  if a = [] ∧ b = [] then []
  else if a = [] then Clean b
  else if b = [] then Clean a
  else Clean (a ++ Separator :: b)

/-- The function `filepath.Abs`: an absolute path is cleaned, a relative one is joined to
the working directory; it fails when the working directory cannot be obtained. -/
def Abs (cwd : Except Error Str) (path : Str) : Except Error Str :=
  if IsAbs path then .ok (Clean path)
  else
    match cwd with
    | .error e => .error e
    | .ok wd => .ok (Join wd path)

/-- The first path element of `s` (up to the next separator) and what follows it. -/
def splitElem (s : Str) : Str × Str := s.span (fun c => c != Separator)

/-- Result of the element-matching loop of `filepath.Rel`: the base from `b0`, the
differing base element `base[b0:bi]`, and the target from `t0`. -/
structure RelPos where
  baseRest : Str
  baseElem : Str
  targRest : Str
  deriving DecidableEq, Repr

/-- The loop of `filepath.Rel` that positions both paths at their first differing
elements. `fuel` bounds the number of elements. -/
def relLoop : Nat → Str → Str → RelPos
  | 0, base, targ => ⟨base, [], targ⟩
  | fuel + 1, base, targ =>
    if base = [] ∨ targ = [] then ⟨base, [], targ⟩
    else
      let (be, br) := splitElem base
      let (te, tr) := splitElem targ
      if te ≠ be then ⟨base, be, targ⟩
      else relLoop fuel (br.drop 1) (tr.drop 1)

/-- The function `filepath.Rel` on Unix. -/
def Rel (basepath targpath : Str) : Except Error Str :=
  let base := Clean basepath
  let targ := Clean targpath
  if targ = base then .ok ['.']
  else
    let base := if base = ['.'] then [] else base
    let baseSlashed := base.head? == some Separator
    let targSlashed := targ.head? == some Separator
    if baseSlashed != targSlashed then .error (.rel basepath targpath)
    else
      let pos := relLoop (base.length + 1) base targ
      if pos.baseElem = ['.', '.'] then .error (.rel basepath targpath)
      else if pos.baseRest ≠ [] then
        -- base elements left: go up before going down
        let seps := pos.baseRest.count Separator
        let ups := ['.', '.'] ++ (List.replicate seps [Separator, '.', '.']).flatten
        if pos.targRest ≠ [] then .ok (ups ++ Separator :: pos.targRest) else .ok ups
      else .ok pos.targRest

/-! ## The file system -/

/-- The type bits of an `os.FileMode`; `regular` is the mode with no type bit set, the
only one for which `IsRegular` holds. -/
inductive FileMode where
  | regular
  | dir
  | symlink
  | device
  | charDevice
  | namedPipe
  | socket
  | irregular
  deriving DecidableEq, Repr

mutual
/-- What is found at a path: an entry whose `Lstat` fails, an entry that `walk` does not
descend into with its mode and the result of `ioutil.ReadFile` on it, or a directory
with the error of `readDirNames` (if any) and its entries in the order `readDirNames`
returns them. -/
inductive Node where
  | missing (e : Error)
  | file (mode : FileMode) (data : Except Error Str)
  | dir (readErr : Option Error) (entries : Entries)
/-- The named entries of a directory. -/
inductive Entries where
  | nil
  | cons (name : Str) (node : Node) (rest : Entries)
end

/-- The part of `os.FileInfo` the code looks at, with the bytes `ioutil.ReadFile` gives
for the path the info was taken from. -/
structure FileInfo where
  mode : FileMode
  data : Except Error Str
  deriving DecidableEq

/-- The method chain `info.Mode().IsRegular()`. -/
def FileInfo.IsRegular (info : FileInfo) : Bool := info.mode == .regular

/-- The arguments `info` and `err` of a `filepath.WalkFunc` call: `Lstat` failed (nil
info, the error), or an entry with its info and the error of reading it as a directory. -/
inductive WalkArg where
  | failed (e : Error)
  | entry (info : FileInfo) (err : Option Error)

/-- A `filepath.WalkFunc` closure over a state `σ`. -/
abbrev WalkFunc (σ : Type) := Str → WalkArg → σ → σ × Option Error

mutual
/-- The function `walk` of `path/filepath`, with the `Lstat` of the entry folded in, for a
callback that never returns `SkipDir`: call `walkFn` on the entry, then descend. -/
def walk {σ : Type} (walkFn : WalkFunc σ) (path : Str) : Node → σ → σ × Option Error
  | .missing e, s => walkFn path (.failed e) s
  | .file mode data, s => walkFn path (.entry ⟨mode, data⟩ none) s
  | .dir readErr entries, s =>
    match walkFn path (.entry ⟨.dir, .error (.io 21)⟩ readErr) s with
    | (s1, some err1) => (s1, some err1)
    | (s1, none) =>
      match readErr with
      | some _ => (s1, none)
      | none => walkEntries walkFn path entries s1
/-- The loop `for _, name := range names` of `walk`. -/
def walkEntries {σ : Type} (walkFn : WalkFunc σ) (path : Str) : Entries → σ → σ × Option Error
  | .nil, s => (s, none)
  | .cons name node rest, s =>
    match walk walkFn (Join path name) node s with
    | (s1, some err) => (s1, some err)
    | (s1, none) => walkEntries walkFn path rest s1
end

/-- The function `filepath.Walk`. -/
def Walk {σ : Type} (root : Str) (fs : Node) (walkFn : WalkFunc σ) (s : σ) : σ × Option Error :=
  walk walkFn root fs s

/-! ## `html/template`

The template language is a parameter (`Engine`): how a text parses and how a parsed body
executes. What the registry relies on is how `New` and `Parse` keep the shared set of
named templates, and that is modelled here. -/

/-- The data value handed to a template: named fields. -/
abbrev Data := List (Str × Str)

/-- The template language. `parse funcs name text` is `parse.Parse` for a template called
`name` when the function names `funcs` (and the predefined ones) are known: the error, or
the templates the text gives rise to, each with its body: the template `name` itself and
every template the text defines with `define` or `block`. `isEmpty` is
`parse.IsEmptyTree` of a body. `exec` executes a body given the templates of the set, the
helper names and the data: the output written and the error, if any. -/
structure Engine where
  parse : List Str → Str → Str → Except Error (List (Str × Str))
  isEmpty : Str → Bool
  exec : List (Str × Str) → List Str → Str → Data → Str × Option Error

/-- The predefined global functions of the template language. -/
def builtins : List Str :=
  ["and", "call", "html", "index", "slice", "js", "len", "not", "or", "print", "printf",
   "println", "urlquery", "eq", "ge", "gt", "le", "lt", "ne"].map String.toList

/-- A `*template.Template` handle named `""` and the name space it belongs to: the
templates that have a body (name and body), the names handed out by `New` that have not
been parsed since (their template is incomplete), the helper names registered with
`Funcs`, and whether the template registered under the name `""` is the handle itself. -/
structure TemplateSet where
  entries : List (Str × Str)
  incomplete : List Str
  funcs : List Str
  own : Bool
  deriving DecidableEq, Repr

/-- A template returned by `New`: its name, whether it is associated with the handle it
was made from, and the helper names known to its parser. -/
structure Handle where
  name : Str
  attached : Bool
  funcs : List Str
  deriving DecidableEq, Repr

/-- The call `template.New("")`. -/
def TemplateSet.empty : TemplateSet := ⟨[], [], [], true⟩

/-- The method `(*Template).New` of `html/template`: "If a template with the given name
already exists, the new HTML template will replace it. The existing template will be
reset and disassociated with t." When the existing template is the handle itself (the
name is the handle's own and it still is registered under it), it is the handle that is
reset to an empty template in a name space of its own, and the new template stays behind
in the old one. Otherwise the name is registered with a template that has no body yet. -/
def TemplateSet.New (root : TemplateSet) (name : Str) : TemplateSet × Handle :=
  if name = [] ∧ root.own = true then
    (⟨[], [], [], false⟩, ⟨name, false, root.funcs⟩)
  else
    ({ root with incomplete := name :: root.incomplete }, ⟨name, true, root.funcs⟩)

/-- The method `associate` of `text/template`, with the assignment of the tree that
follows it in `AddParseTree`: a parsed template takes the place of the one of its name,
except that an empty body does not replace a template that exists. -/
def TemplateSet.associate (E : Engine) (root : TemplateSet) (d : Str × Str) : TemplateSet :=
  if root.entries.any (fun e => e.1 = d.1) = true ∧ E.isEmpty d.2 = true then root
  else { root with entries := d :: root.entries.filter (fun e => e.1 ≠ d.1) }

/-- The method `(*Template).Parse` on a template made by `New`: the text is parsed under
the template's name with the functions known at that moment; on success every template
of the result is associated with the set the template belongs to, and every template of
that set that has a body is complete again. -/
def TemplateSet.Parse (E : Engine) (root : TemplateSet) (this : Handle) (text : Str) :
    Except Error TemplateSet :=
  match E.parse this.funcs this.name text with
  | .error err => .error err
  | .ok trees =>
    if this.attached then
      let root1 := trees.foldl (TemplateSet.associate E) root
      .ok { root1 with
        incomplete := root1.incomplete.filter
          (fun n => decide (n ∉ root1.entries.map Prod.fst)) }
    else .ok root

/-- The method `(*Template).Funcs`: adds the names of the map to the function map. -/
def TemplateSet.Funcs (root : TemplateSet) (funcMap : List Str) : TemplateSet :=
  { root with funcs := root.funcs ++ funcMap }

/-- The method `(*Template).Lookup`, for templates that are complete. -/
def TemplateSet.Lookup (root : TemplateSet) (name : Str) : Option Str :=
  if name ∈ root.incomplete then none
  else (root.entries.find? (fun e => e.1 = name)).map Prod.snd

/-- The method `(*Template).ExecuteTemplate`: an error and no output when no complete
template has the name, the output of the execution appended to `w` otherwise. -/
def TemplateSet.ExecuteTemplate (E : Engine) (root : TemplateSet) (w : Str) (name : Str)
    (data : Data) : Str × Option Error :=
  match root.Lookup name with
  | none => (w, some (.noTemplate name))
  | some body =>
    let r := E.exec root.entries root.funcs body data
    (w ++ r.1, r.2)

/-! ## `templates.go` -/

/-- The struct `Template`: the embedded `*template.Template` (nil before the first load), the
root directory, the extension, and the helper functions (a nil or non-nil map). -/
structure Template where
  template : Option TemplateSet
  dir : Str
  ext : Str
  funcs : Option (List Str)
  deriving DecidableEq, Repr

/-- The closure `walkFunc` of `Load`; the state is the variable `root`. -/
def walkFunc (E : Engine) (t : Template) : WalkFunc TemplateSet := fun path arg root =>
  match arg with
  -- handle walking error if any
  | .failed err => (root, some err)
  | .entry _ (some err) => (root, some err)
  | .entry info none =>
    -- skip if it not a regular file
    if info.IsRegular = false then (root, none)
    -- filter by extension
    else if Ext path ≠ t.ext then (root, none)
    else
      -- get path relative to the root of the templates
      match Rel t.dir path with
      | .error err => (root, some err)
      | .ok rel =>
        -- name of a template is its relative path without extension
        let rel := TrimSuffix rel t.ext
        -- load the new template
        let (root1, this) := root.New rel
        match info.data with
        | .error err => (root1, some err)
        | .ok b =>
          match root1.Parse E this b with
          | .error err => (root1, some err)
          | .ok root2 => (root2, none)

/-- The method `Load`, on the tree `fs` found at `t.dir`: the registry after the call
and the error returned. -/
def Load (E : Engine) (fs : Node) (t : Template) : Template × Option Error :=
  -- unnamed root template
  let root := TemplateSet.empty
  -- walk the template tree, loading templates as we find them
  match Walk t.dir fs (walkFunc E t) root with
  | (_, some err) => (t, some err)
  | (root, none) =>
    -- necessary for reloading
    let root := match t.funcs with
      | some funcs => root.Funcs funcs
      | none => root
    -- set or replace
    ({ t with template := some root }, none)

/-- The environment of `NewTemplate`: the working directory (`os.Getwd`) and what is found
at each path. -/
structure World where
  cwd : Except Error Str
  tree : Str → Node

/-- The function `NewTemplate`. -/
def NewTemplate (E : Engine) (w : World) (dir ext : Str) : Except Error Template :=
  match Abs w.cwd dir with
  | .error err => .error err
  | .ok dir =>
    let t : Template := { template := none, dir := dir, ext := ext, funcs := none }
    match Load E (w.tree dir) t with
    | (_, some err) => .error err
    | (t, none) => .ok t

/-- The method `Dir`. -/
def Template.Dir (t : Template) : Str := t.dir

/-- The method `Ext`. -/
def Template.Ext (t : Template) : Str := t.ext

/-- The method `Funcs`; `none` is the nil-pointer panic of calling it on a registry
without a root template. -/
def Template.Funcs (t : Template) (funcMap : Option (List Str)) : Option Template :=
  match t.template with
  | none => none
  | some root =>
    some { t with template := some (root.Funcs (funcMap.getD [])), funcs := funcMap }

/-- The method `Render`: the contents of the sink after the call and the error returned;
`none` is the nil-pointer panic of calling it on a registry without a root template. -/
def Template.Render (E : Engine) (t : Template) (w : Str) (name : Str) (data : Data) :
    Option (Str × Option Error) :=
  match t.template with
  | none => none
  | some root => some (root.ExecuteTemplate E w name data)

/-! ## A fragment of the template language

An instance of `Engine` for concrete runs. It covers literal text, `{{.Field}}` (a field
of the data, escaped as `html/template` escapes a value in HTML text), `{{name args}}`
(a call of the function `name`, which must be known when the text is parsed) and
`{{define "name"}} ... {{end}}` at the top level of a text. Literal text is copied as it
stands. Any other action is answered with the error `unsupported`, which marks the
border of the fragment, and so is the execution of a function call. -/

/-- A piece of a template text: literal text or the inside of an action. -/
inductive Seg where
  | text (s : Str)
  | action (s : Str)
  deriving DecidableEq, Repr

/-- Split a text at the delimiters `{{` and `}}`; `none` when an action is not closed.
The flag says whether the scanner is inside an action, `acc` is the current piece
reversed. -/
def lexSegs : Bool → Str → Str → Option (List Seg)
  | false, [], acc => some [.text acc.reverse]
  | true, [], _ => none
  | inAction, [c], acc => lexSegs inAction [] (c :: acc)
  | false, c1 :: c2 :: tl, acc =>
    if c1 = '{' ∧ c2 = '{' then (lexSegs true tl []).map (fun r => .text acc.reverse :: r)
    else lexSegs false (c2 :: tl) (c1 :: acc)
  | true, c1 :: c2 :: tl, acc =>
    if c1 = '}' ∧ c2 = '}' then (lexSegs false tl []).map (fun r => .action acc.reverse :: r)
    else lexSegs true (c2 :: tl) (c1 :: acc)

/-- The first word of an action. -/
def actionWord (a : Str) : Str :=
  (a.dropWhile (fun c => c = ' ')).takeWhile (fun c => c ≠ ' ')

/-- The keywords of the template language other than `define` and `end`. -/
def otherKeywords : List Str :=
  ["block", "break", "continue", "else", "if", "range", "template", "with", "nil"].map
    String.toList

/-- The function an action calls: its first word, when that word starts with a letter. -/
def actionFunc (a : Str) : Option Str :=
  match actionWord a with
  | [] => none
  | c :: w => if c.isAlpha then some (c :: w) else none

/-- Whether an action is a plain field of the data: a dot followed by letters, digits or
underscores. -/
def isFieldAction (a : Str) : Bool :=
  match a with
  | '.' :: c :: rest => (c :: rest).all (fun x => x.isAlphanum || x = '_')
  | _ => false

/-- The name in `define "name"`: what stands between the first two double quotes. -/
def defineName (a : Str) : Option Str :=
  match a.dropWhile (fun c => c ≠ '"') with
  | [] => none
  | _ :: rest =>
    if '"' ∈ rest then some (rest.takeWhile (fun c => c ≠ '"')) else none

/-- The source text of a list of pieces. -/
def segsText : List Seg → Str
  | [] => []
  | .text s :: rest => s ++ segsText rest
  | .action a :: rest => '{' :: '{' :: a ++ '}' :: '}' :: segsText rest

/-- Whether a body is empty in the sense of `parse.IsEmptyTree`: only white space. -/
def bodyEmpty (body : Str) : Bool := body.all (fun c => c.isWhitespace)

/-- The method `add` of `parse.Tree`: a template joins the set of the parse unless a
non-empty one of its name is there; two non-empty ones are the error "multiple
definition of template". -/
def treeAdd (set : List (Str × Str)) (d : Str × Str) : Except Error (List (Str × Str)) :=
  match set.find? (fun e => e.1 = d.1) with
  | none => .ok (set ++ [d])
  | some old =>
    if bodyEmpty old.2 then .ok (set.filter (fun e => e.1 ≠ d.1) ++ [d])
    else if bodyEmpty d.2 then .ok set
    else .error (.parse d.1)

/-- Parse the pieces of a text. `cur` is the definition being read (its name and its
pieces so far, reversed), `top` the pieces of the template itself so far, reversed, and
`set` the definitions finished so far. -/
def parseSegs (funcs : List Str) (name : Str) :
    List Seg → Option (Str × List Seg) → List Seg → List (Str × Str) →
      Except Error (List (Str × Str))
  | [], some _, _, _ => .error (.parse name)
  | [], none, top, set => treeAdd set (name, segsText top.reverse)
  | .text s :: rest, some (n, body), top, set =>
    parseSegs funcs name rest (some (n, .text s :: body)) top set
  | .text s :: rest, none, top, set => parseSegs funcs name rest none (.text s :: top) set
  | .action a :: rest, cur, top, set =>
    if actionWord a = "define".toList then
      match cur, defineName a with
      | none, some n => parseSegs funcs name rest (some (n, [])) top set
      | _, _ => .error (.parse name)
    else if actionWord a = "end".toList then
      match cur with
      | some (n, body) =>
        match treeAdd set (n, segsText body.reverse) with
        | .error err => .error err
        | .ok set1 => parseSegs funcs name rest none top set1
      | none => .error (.parse name)
    else if actionWord a ∈ otherKeywords then .error (.unsupported (actionWord a))
    else
      match actionFunc a with
      | some f =>
        if f ∈ funcs ∨ f ∈ builtins then
          match cur with
          | some (n, body) => parseSegs funcs name rest (some (n, .action a :: body)) top set
          | none => parseSegs funcs name rest none (.action a :: top) set
        else .error (.undefinedFunc f)
      | none =>
        if isFieldAction a then
          match cur with
          | some (n, body) => parseSegs funcs name rest (some (n, .action a :: body)) top set
          | none => parseSegs funcs name rest none (.action a :: top) set
        else .error (.unsupported a)

/-- The escaping of a value printed in HTML text (the replacement table of
`html/template`). -/
def htmlEscape : Str → Str
  | [] => []
  | c :: rest =>
    (if c = Char.ofNat 0 then [Char.ofNat 0xFFFD]
     else if c = '&' then "&amp;".toList
     else if c = '+' then "&#43;".toList
     else if c = '<' then "&lt;".toList
     else if c = '>' then "&gt;".toList
     else if c = '"' then "&#34;".toList
     else if c = '\'' then "&#39;".toList
     else [c]) ++ htmlEscape rest

/-- Execute the pieces of a body in order; the result of a function call is outside the
fragment. -/
def execSegs (data : Data) : List Seg → Str × Option Error
  | [] => ([], none)
  | .text s :: rest =>
    let r := execSegs data rest
    (s ++ r.1, r.2)
  | .action a :: rest =>
    match actionFunc a with
    | some f => ([], some (.unsupported f))
    | none =>
      match data.find? (fun d => '.' :: d.1 = a) with
      | some d =>
        let r := execSegs data rest
        (htmlEscape d.2 ++ r.1, r.2)
      | none => ([], some (.exec 2))

/-- The fragment of the template language as an `Engine`. -/
def miniEngine : Engine where
  parse := fun funcs name text =>
    match lexSegs false text [] with
    | none => .error (.parse text)
    | some segs => parseSegs funcs name segs none [] []
  isEmpty := bodyEmpty
  exec := fun _ _ body data => execSegs data ((lexSegs false body []).getD [])


/-! ## Vocabulary of the statements -/

/-- A directory entry name as `readDirNames` returns it: not empty, without a
separator, and neither `.` nor `..`. -/
def ValidName (n : Str) : Prop := n ≠ [] ∧ Separator ∉ n ∧ n ≠ ['.'] ∧ n ≠ ['.', '.']

instance (n : Str) : Decidable (ValidName n) := by unfold ValidName; infer_instance

/-- The elements `c1, ..., ck` joined by separators: `c1/.../ck`. -/
def restOf : List Str → Str
  | [] => []
  | [c] => c
  | c :: cs => c ++ Separator :: restOf cs

/-- The cleaned absolute path `/c1/.../ck` with the given elements. -/
def pathOf (cs : List Str) : Str := Separator :: restOf cs

/-- The path of an entry relative to the root, as `filepath.Rel` writes it: `.` for the
root itself, `c1/.../ck` below it. -/
def relOf (cs : List Str) : Str := if cs = [] then ['.'] else restOf cs

/-- The names of the entries of a directory. -/
def Entries.names : Entries → List Str
  | .nil => []
  | .cons name _ rest => name :: rest.names

mutual
/-- A well-formed tree: in every directory the entry names are valid and distinct. -/
def Node.wf : Node → Bool
  | .missing _ => true
  | .file _ _ => true
  | .dir _ entries => entries.wf
/-- Well-formed entries of a directory. -/
def Entries.wf : Entries → Bool
  | .nil => true
  | .cons name node rest =>
    decide (ValidName name) && decide (name ∉ rest.names) && node.wf && rest.wf
end

mutual
/-- The entries of a tree in walk order, each with its elements relative to the root and
the arguments `filepath.Walk` hands to the callback for it. The entries of a directory
that cannot be read are not visited. -/
def Node.visits (cs : List Str) : Node → List (List Str × WalkArg)
  | .missing e => [(cs, .failed e)]
  | .file mode data => [(cs, .entry ⟨mode, data⟩ none)]
  | .dir readErr entries =>
    (cs, .entry ⟨.dir, .error (.io 21)⟩ readErr) ::
      (match readErr with
       | some _ => []
       | none => entries.visits cs)
/-- The visits below a directory. -/
def Entries.visits (cs : List Str) : Entries → List (List Str × WalkArg)
  | .nil => []
  | .cons name node rest => node.visits (cs ++ [name]) ++ rest.visits cs
end

/-- Run a callback over a list of visits below the root `/d1/.../dk`, stopping at the
first error. -/
def runVisits {σ : Type} (walkFn : WalkFunc σ) (ds : List Str) :
    List (List Str × WalkArg) → σ → σ × Option Error
  | [], s => (s, none)
  | v :: vs, s =>
    match walkFn (pathOf (ds ++ v.1)) v.2 s with
    | (s1, some err) => (s1, some err)
    | (s1, none) => runVisits walkFn ds vs s1

/-- An entry the walk hands to `Load` without error that is a plain regular file whose
extension, computed from its path below the root `/d1/.../dk`, is the configured one. -/
def isTemplateFile (ds : List Str) (ext : Str) (v : List Str × WalkArg) : Bool :=
  match v.2 with
  | .entry info none => info.IsRegular && decide (Ext (pathOf (ds ++ v.1)) = ext)
  | _ => false

/-- The name `Load` derives for the file with the given elements below the root: its
relative path with the extension trimmed from the end. -/
def templateName (ext : Str) (cs : List Str) : Str := TrimSuffix (relOf cs) ext

/-- The error of parsing a text under a name when no helper function is registered, if
any. -/
def parseError (E : Engine) (name text : Str) : Option Error :=
  match E.parse [] name text with
  | .error e => some e
  | .ok _ => none

/-- The error an entry of the walk makes `Load` return, if any: the walk's own error for
the entry, or the read or parse error of a template file. -/
def visitError (E : Engine) (ds : List Str) (ext : Str) (v : List Str × WalkArg) :
    Option Error :=
  match v.2 with
  | .failed e => some e
  | .entry _ (some e) => some e
  | .entry info none =>
    if isTemplateFile ds ext v then
      match info.data with
      | .error e => some e
      | .ok text => parseError E (templateName ext v.1) text
    else none

/-- What a visit contributes: for a template file that can be read and parsed, its
derived name and the templates its text gives rise to. -/
def visitLoad (E : Engine) (ds : List Str) (ext : Str) (v : List Str × WalkArg) :
    Option (Str × List (Str × Str)) :=
  match v.2 with
  | .entry info none =>
    if isTemplateFile ds ext v then
      match info.data with
      | .error _ => none
      | .ok text =>
        match E.parse [] (templateName ext v.1) text with
        | .error _ => none
        | .ok trees => some (templateName ext v.1, trees)
    else none
  | _ => none

/-- The state of the root handle after `root.New(name)` and a successful `Parse` on the
result that gave the templates `trees`. -/
def TemplateSet.define (E : Engine) (root : TemplateSet) (d : Str × List (Str × Str)) :
    TemplateSet :=
  if d.1 = [] ∧ root.own = true then ⟨[], [], [], false⟩
  else
    let root1 := d.2.foldl (TemplateSet.associate E)
      { root with incomplete := d.1 :: root.incomplete }
    { root1 with
      incomplete := root1.incomplete.filter (fun n => decide (n ∉ root1.entries.map Prod.fst)) }

/-- The state of the scanner of `Clean` on a rooted path: the elements written so far are
valid names, and an element being copied will not turn out to be `.` or `..`. -/
def CleanInv (mode : CleanMode) (input out : Str) : Prop :=
  match mode with
  | .copy =>
    ∃ cs p, (∀ c ∈ cs, ValidName c) ∧ p ≠ [] ∧ Separator ∉ p ∧
      ValidName (p ++ input.takeWhile (fun c => c != Separator)) ∧
      out = p.reverse ++ (if (pathOf cs).reverse.length ≠ 1 then Separator :: (pathOf cs).reverse
        else (pathOf cs).reverse)
  | _ => ∃ cs, (∀ c ∈ cs, ValidName c) ∧ out = (pathOf cs).reverse

/-! ## Concrete trees -/

/-- The directory of the scenario `/tmp/views`: `welcome.txt` and `nested/bye.txt`. -/
def viewsTree : Node :=
  .dir none
    (.cons "nested".toList
      (.dir none
        (.cons "bye.txt".toList (.file .regular (.ok "Bye, \x7b\x7b.Name\x7d\x7d.".toList)) .nil))
    (.cons "welcome.txt".toList
      (.file .regular (.ok "Hello, \x7b\x7b.Name\x7d\x7d!".toList)) .nil))

/-- A directory with `a.html` and `a.txt`. -/
def mixedTree : Node :=
  .dir none
    (.cons "a.html".toList (.file .regular (.ok "<p>a</p>".toList))
    (.cons "a.txt".toList (.file .regular (.ok "a".toList)) .nil))

/-- A directory whose only file has an action that is not closed. -/
def brokenTree : Node :=
  .dir none (.cons "welcome.txt".toList (.file .regular (.ok "Hello, \x7b\x7b.Name".toList)) .nil)

/-- A directory whose only file calls the helper `upper`. -/
def helperTree : Node :=
  .dir none
    (.cons "shout.txt".toList (.file .regular (.ok "\x7b\x7bupper .Name\x7d\x7d".toList)) .nil)

/-- A directory with `-a.txt` and a file named `.txt`. -/
def dotTree : Node :=
  .dir none
    (.cons "-a.txt".toList (.file .regular (.ok "A".toList))
    (.cons ".txt".toList (.file .regular (.ok "dot".toList)) .nil))

/-- The files of `dotTree` in the other order. -/
def dotTreeSwapped : Node :=
  .dir none
    (.cons ".txt".toList (.file .regular (.ok "dot".toList))
    (.cons "-a.txt".toList (.file .regular (.ok "A".toList)) .nil))

/-- A directory with `-a.html` and a file named `.html`. -/
def dotHtmlTree : Node :=
  .dir none
    (.cons "-a.html".toList (.file .regular (.ok "A".toList))
    (.cons ".html".toList (.file .regular (.ok "dot".toList)) .nil))

/-- A directory with `a.html`, whose text defines a second template `extra`, and
`a.txt`. -/
def defineTree : Node :=
  .dir none
    (.cons "a.html".toList
      (.file .regular
        (.ok "A\x7b\x7bdefine \"extra\"\x7d\x7dX\x7b\x7bend\x7d\x7d".toList))
    (.cons "a.txt".toList (.file .regular (.ok "a".toList)) .nil))

/-- A directory with `b.txt` and `z.txt`, whose text defines a template `b`. -/
def overwriteTree : Node :=
  .dir none
    (.cons "b.txt".toList (.file .regular (.ok "B".toList))
    (.cons "z.txt".toList
      (.file .regular
        (.ok "Z\x7b\x7bdefine \"b\"\x7d\x7dX\x7b\x7bend\x7d\x7d".toList)) .nil))

/-- A directory with `a.html` and `a.txt` of any contents. -/
def pairTree (html : Str) (txt : Except Error Str) : Node :=
  .dir none
    (.cons "a.html".toList (.file .regular (.ok html))
    (.cons "a.txt".toList (.file .regular txt) .nil))

/-- A world in which `/tmp/views` holds the given tree and nothing else exists. -/
def worldWith (fs : Node) : World :=
  ⟨.ok "/home/u".toList, fun p => if p = "/tmp/views".toList then fs else .missing (.io 2)⟩

/-- The registry of the scenario after `NewTemplate("/tmp/views", ".txt")`. -/
def viewsRegistry : Template :=
  { template := some
      { entries :=
          [("welcome".toList, "Hello, \x7b\x7b.Name\x7d\x7d!".toList),
           ("nested/bye".toList, "Bye, \x7b\x7b.Name\x7d\x7d.".toList)],
        incomplete := [], funcs := [], own := true },
    dir := "/tmp/views".toList, ext := ".txt".toList, funcs := none }

/-! ## Path lemmas -/

theorem restOf_cons (c : Str) (cs : List Str) (h : cs ≠ []) :
    restOf (c :: cs) = c ++ Separator :: restOf cs := by
  cases cs with
  | nil => exact absurd rfl h
  | cons d ds => rfl

theorem restOf_append_single (cs : List Str) (n : Str) (h : cs ≠ []) :
    restOf (cs ++ [n]) = restOf cs ++ Separator :: n := by
  induction cs with
  | nil => exact absurd rfl h
  | cons c cs ih =>
    cases cs with
    | nil => simp [restOf]
    | cons d ds =>
      have := ih (by simp)
      simp only [List.cons_append] at this ⊢
      rw [restOf_cons c _ (by simp), this, restOf_cons c _ (by simp)]
      simp

theorem cleanLoop_copy (rooted : Bool) (n rest out : Str) (dd : Nat) (hn : Separator ∉ n) :
    cleanLoop rooted .copy (n ++ rest) out dd =
      cleanLoop rooted .copy rest (n.reverse ++ out) dd := by
  induction n generalizing out with
  | nil => simp
  | cons c n ih =>
    have hc : c ≠ Separator := fun h => hn (by simp [h])
    have hn2 : Separator ∉ n := fun h => hn (by simp [h])
    rw [List.cons_append, cleanLoop, if_neg hc, ih _ hn2]
    simp

theorem cleanLoop_start_valid (n rest out : Str) (dd : Nat) (hv : ValidName n)
    (hrest : rest = [] ∨ rest.head? = some Separator) :
    cleanLoop true .start (n ++ rest) out dd =
      cleanLoop true .copy rest
        (n.reverse ++ (if out.length ≠ 1 then Separator :: out else out)) dd := by
  obtain ⟨hne, hsep, hdot, hdd⟩ := hv
  cases n with
  | nil => exact absurd rfl hne
  | cons c n =>
    have hc : c ≠ Separator := fun h => hsep (by simp [h])
    have hn2 : Separator ∉ n := fun h => hsep (by simp [h])
    have h1 : ¬ (c = '.' ∧ (n ++ rest = [] ∨ (n ++ rest).head? = some Separator)) := by
      rintro ⟨rfl, h⟩
      cases n with
      | nil => exact hdot rfl
      | cons d n =>
        rcases h with h | h
        · simp at h
        · simp at h; exact hn2 (by simp [h])
    have h2 : ¬ (c = '.' ∧ (n ++ rest).head? = some '.' ∧
        ((n ++ rest).tail = [] ∨ (n ++ rest).tail.head? = some Separator)) := by
      rintro ⟨rfl, h, h3⟩
      cases n with
      | nil =>
        rcases hrest with rfl | hr
        · simp at h
        · simp [hr, Separator] at h
      | cons d n =>
        simp at h
        subst h
        cases n with
        | nil => exact hdd rfl
        | cons e n =>
          rcases h3 with h3 | h3
          · simp at h3
          · simp at h3; exact hn2 (by simp [h3])
    rw [List.cons_append, cleanLoop, if_neg hc, if_neg h1, if_neg h2,
      cleanLoop_copy _ _ _ _ _ hn2]
    simp

theorem restOf_eq_nil (cs : List Str) (hcs : ∀ c ∈ cs, ValidName c) :
    restOf cs = [] ↔ cs = [] := by
  constructor
  · intro h
    cases cs with
    | nil => rfl
    | cons c cs =>
      have hc := (hcs c (by simp)).1
      cases cs with
      | nil => exact absurd h hc
      | cons d ds => simp [restOf] at h
  · rintro rfl; rfl

theorem pathOf_append_single (cs : List Str) (n : Str) (hcs : ∀ c ∈ cs, ValidName c) :
    (pathOf (cs ++ [n])).reverse =
      n.reverse ++ (if (pathOf cs).reverse.length ≠ 1 then Separator :: (pathOf cs).reverse
        else (pathOf cs).reverse) := by
  by_cases h : cs = []
  · subst h; simp [pathOf, restOf]
  · have hl : (pathOf cs).reverse.length ≠ 1 := by
      have := mt (restOf_eq_nil cs hcs).1 h
      simp [pathOf]
      exact this
    rw [if_pos hl]
    simp [pathOf, restOf_append_single cs n h]

theorem cleanLoop_path (cs ns : List Str) (hcs : ∀ c ∈ cs, ValidName c)
    (hns : ∀ c ∈ ns, ValidName c) :
    cleanLoop true .start (restOf ns) (pathOf cs).reverse 1 = (pathOf (cs ++ ns)).reverse := by
  induction ns generalizing cs with
  | nil => simp [restOf, cleanLoop]
  | cons n ns ih =>
    have hn : ValidName n := hns n (by simp)
    cases ns with
    | nil =>
      have := cleanLoop_start_valid n [] (pathOf cs).reverse 1 hn (Or.inl rfl)
      simp only [List.append_nil] at this
      rw [restOf, this, cleanLoop, pathOf_append_single cs n hcs]
    | cons m ms =>
      have := cleanLoop_start_valid n (Separator :: restOf (m :: ms)) (pathOf cs).reverse 1 hn
        (Or.inr rfl)
      rw [restOf_cons n _ (by simp), this, cleanLoop, if_pos rfl,
        ← pathOf_append_single cs n hcs]
      have h2 := ih (cs ++ [n]) (by
        intro c hc
        rcases List.mem_append.1 hc with h | h
        · exact hcs c h
        · simp at h; subst h; exact hn) (fun c hc => hns c (by simp [hc]))
      rw [h2]; simp

theorem Clean_pathOf (cs : List Str) (hcs : ∀ c ∈ cs, ValidName c) :
    Clean (pathOf cs) = pathOf cs := by
  have h := cleanLoop_path [] cs (by simp) hcs
  simp only [pathOf, restOf, List.reverse_cons, List.reverse_nil, List.nil_append] at h
  simp only [Clean, pathOf, decide_True, if_true]
  rw [h]
  simp

theorem Join_pathOf (cs : List Str) (n : Str) (hcs : ∀ c ∈ cs, ValidName c)
    (hn : ValidName n) : Join (pathOf cs) n = pathOf (cs ++ [n]) := by
  have hn0 : n ≠ [] := hn.1
  have hv : ∀ c ∈ cs ++ [n], ValidName c := by
    intro c hc
    rcases List.mem_append.1 hc with h | h
    · exact hcs c h
    · simp at h; subst h; exact hn
  have hclean := Clean_pathOf (cs ++ [n]) hv
  simp only [Join, pathOf, List.cons_ne_nil, false_and, if_false, hn0]
  by_cases h : cs = []
  · subst h
    simp only [restOf, List.nil_append, List.cons_append] at hclean ⊢
    simp only [Clean, decide_True, if_true] at hclean ⊢
    rw [cleanLoop, if_pos rfl]
    exact hclean
  · rw [restOf_append_single cs n h]
    rw [pathOf, restOf_append_single cs n h] at hclean
    simpa using hclean

theorem splitElem_append (n rest : Str) (hn : Separator ∉ n)
    (hrest : rest = [] ∨ rest.head? = some Separator) : splitElem (n ++ rest) = (n, rest) := by
  unfold splitElem
  rw [List.span_eq_take_drop]
  induction n with
  | nil =>
    rcases hrest with rfl | h
    · simp
    · cases rest with
      | nil => simp
      | cons c r =>
        simp at h; subst h
        simp [List.takeWhile, List.dropWhile]
  | cons c n ih =>
    have hc : c ≠ Separator := fun h => hn (by simp [h])
    have hn2 : Separator ∉ n := fun h => hn (by simp [h])
    have ih2 := ih hn2
    simp only [Prod.mk.injEq] at ih2
    have hb : (c != Separator) = true := by simp [hc]
    simp [List.takeWhile, List.dropWhile, hb, ih2.1, ih2.2]

theorem restOf_cons_if (d : Str) (l : List Str) :
    restOf (d :: l) = d ++ (if l = [] then [] else Separator :: restOf l) := by
  cases l with
  | nil => simp [restOf]
  | cons e l => simp [restOf]

theorem splitElem_restOf (d : Str) (l : List Str) (hd : ValidName d) :
    splitElem (restOf (d :: l)) = (d, if l = [] then [] else Separator :: restOf l) := by
  rw [restOf_cons_if]
  apply splitElem_append _ _ hd.2.1
  by_cases h : l = []
  · simp [h]
  · simp [h]

theorem drop_one_rest (l : List Str) :
    (if l = [] then [] else Separator :: restOf l : Str).drop 1 = restOf l := by
  by_cases h : l = []
  · simp [h, restOf]
  · simp [h]

theorem restOf_cons_ne_nil (d : Str) (l : List Str) (hd : ValidName d) :
    restOf (d :: l) ≠ [] := by
  rw [restOf_cons_if]
  intro h
  exact hd.1 (List.append_eq_nil.1 h).1

theorem restOf_injective (cs ds : List Str) (hcs : ∀ c ∈ cs, ValidName c)
    (hds : ∀ c ∈ ds, ValidName c) (h : restOf cs = restOf ds) : cs = ds := by
  induction cs generalizing ds with
  | nil =>
    cases ds with
    | nil => rfl
    | cons d ds => exact absurd h.symm (restOf_cons_ne_nil d ds (hds d (by simp)))
  | cons c cs ih =>
    cases ds with
    | nil => exact absurd h (restOf_cons_ne_nil c cs (hcs c (by simp)))
    | cons d ds =>
      have h1 := splitElem_restOf c cs (hcs c (by simp))
      have h2 := splitElem_restOf d ds (hds d (by simp))
      rw [h, h2] at h1
      simp only [Prod.mk.injEq] at h1
      have h3 := congrArg (List.drop 1) h1.2
      rw [drop_one_rest, drop_one_rest] at h3
      rw [h1.1, ih ds (fun x hx => hcs x (by simp [hx])) (fun x hx => hds x (by simp [hx])) h3.symm]

theorem relLoop_prefix (ds cs : List Str) (fuel : Nat) (hds : ∀ c ∈ ds, ValidName c)
    (hfuel : (restOf ds).length < fuel) :
    relLoop fuel (restOf ds) (restOf (ds ++ cs)) = ⟨[], [], restOf cs⟩ := by
  induction ds generalizing fuel with
  | nil =>
    cases fuel with
    | zero => simp [relLoop, restOf]
    | succ f => simp [relLoop, restOf]
  | cons d ds ih =>
    have hd : ValidName d := hds d (by simp)
    cases fuel with
    | zero => omega
    | succ f =>
      have hb := restOf_cons_ne_nil d ds hd
      have ht := restOf_cons_ne_nil d (ds ++ cs) hd
      have hlen : (restOf ds).length < f := by
        rw [restOf_cons_if] at hfuel
        have : 0 < d.length := List.length_pos.2 hd.1
        by_cases h : ds = []
        · subst h; simp [restOf] at hfuel ⊢; omega
        · simp [h] at hfuel; omega
      rw [List.cons_append, relLoop]
      simp only [hb, ht, or_self, if_false, splitElem_restOf _ _ hd, ne_eq, not_true_eq_false,
        drop_one_rest]
      exact ih f (fun x hx => hds x (by simp [hx])) hlen

theorem Rel_pathOf (ds cs : List Str) (hds : ∀ c ∈ ds, ValidName c)
    (hcs : ∀ c ∈ cs, ValidName c) (hne : cs ≠ []) :
    Rel (pathOf ds) (pathOf (ds ++ cs)) = .ok (restOf cs) := by
  have hall : ∀ c ∈ ds ++ cs, ValidName c := by
    intro c hc
    rcases List.mem_append.1 hc with h | h
    · exact hds c h
    · exact hcs c h
  have hneq : pathOf (ds ++ cs) ≠ pathOf ds := by
    intro h
    simp only [pathOf, List.cons.injEq, true_and] at h
    have := restOf_injective _ _ hall hds h
    have h2 : (ds ++ cs).length = ds.length := by rw [this]
    simp at h2
    exact hne h2
  have hdot : pathOf ds ≠ ['.'] := by simp [pathOf, Separator]
  have hloop : relLoop ((pathOf ds).length + 1) (pathOf ds) (pathOf (ds ++ cs)) =
      ⟨[], [], restOf cs⟩ := by
    rw [relLoop]
    have hs : ∀ x : Str, splitElem (Separator :: x) = ([], Separator :: x) := by
      intro x
      exact splitElem_append [] (Separator :: x) (by simp) (Or.inr rfl)
    simp only [pathOf, List.cons_ne_nil, or_self, if_false, hs, ne_eq, not_true_eq_false,
      List.drop_succ_cons, List.drop_zero]
    exact relLoop_prefix ds cs _ hds (by simp)
  unfold Rel
  simp only [Clean_pathOf ds hds, Clean_pathOf _ hall, hneq, if_false, hdot, hloop]
  have hr : restOf cs ≠ [] := mt (restOf_eq_nil cs hcs).1 hne
  simp [pathOf]

/-- The fuel of `relLoop` never runs out before the base is consumed: every bound above
the length of the base gives the same result. -/
theorem relLoop_fuel (f1 : Nat) :
    ∀ (f2 : Nat) (base targ : Str), base.length < f1 → base.length < f2 →
      relLoop f1 base targ = relLoop f2 base targ := by
  induction f1 with
  | zero => intro f2 base targ h1 _; omega
  | succ f1 ih =>
    intro f2 base targ h1 h2
    cases f2 with
    | zero => omega
    | succ f2 =>
      rw [relLoop, relLoop]
      by_cases hstop : base = [] ∨ targ = []
      · rw [if_pos hstop, if_pos hstop]
      · rw [if_neg hstop, if_neg hstop]
        have hb : base ≠ [] := fun h => hstop (Or.inl h)
        have hlen : ((splitElem base).2.drop 1).length < base.length := by
          have hsp : (splitElem base).1 ++ (splitElem base).2 = base := by
            unfold splitElem
            rw [List.span_eq_take_drop]
            exact List.takeWhile_append_dropWhile _ _
          have hl := congrArg List.length hsp
          simp only [List.length_append] at hl
          have hpos := List.length_pos.2 hb
          simp only [List.length_drop]
          omega
        by_cases hne : (splitElem targ).1 ≠ (splitElem base).1
        · simp only [hne, ne_eq, not_false_eq_true, if_true]
        · simp only [hne, if_false]
          exact ih f2 _ _ (by omega) (by omega)

/-! ## The walk as a list of visits -/

theorem runVisits_append {σ : Type} (walkFn : WalkFunc σ) (ds : List Str)
    (a b : List (List Str × WalkArg)) (s : σ) :
    runVisits walkFn ds (a ++ b) s =
      match runVisits walkFn ds a s with
      | (s1, some err) => (s1, some err)
      | (s1, none) => runVisits walkFn ds b s1 := by
  induction a generalizing s with
  | nil => simp [runVisits]
  | cons v a ih =>
    simp only [List.cons_append, runVisits]
    rcases h : walkFn (pathOf (ds ++ v.1)) v.2 s with ⟨s1, _ | e⟩
    · exact ih s1
    · rfl

mutual
theorem walk_eq_runVisits {σ : Type} (walkFn : WalkFunc σ) (ds : List Str)
    (hds : ∀ c ∈ ds, ValidName c) :
    ∀ (node : Node) (cs : List Str) (s : σ), node.wf = true → (∀ c ∈ cs, ValidName c) →
      walk walkFn (pathOf (ds ++ cs)) node s = runVisits walkFn ds (node.visits cs) s
  | .missing e, cs, s, _, _ => by
    simp only [walk, Node.visits, runVisits]
    rcases walkFn (pathOf (ds ++ cs)) (.failed e) s with ⟨s1, _ | e⟩ <;> rfl
  | .file mode data, cs, s, _, _ => by
    simp only [walk, Node.visits, runVisits]
    rcases walkFn (pathOf (ds ++ cs)) (.entry ⟨mode, data⟩ none) s with ⟨s1, _ | e⟩ <;> rfl
  | .dir readErr entries, cs, s, hwf, hcs => by
    simp only [walk, Node.visits, runVisits]
    rcases walkFn (pathOf (ds ++ cs)) (.entry ⟨.dir, .error (.io 21)⟩ readErr) s
      with ⟨s1, _ | e⟩
    · cases readErr with
      | some e => simp [runVisits]
      | none =>
        simp only
        exact walkEntries_eq_runVisits walkFn ds hds entries cs s1 (by simpa [Node.wf] using hwf) hcs
    · rfl
theorem walkEntries_eq_runVisits {σ : Type} (walkFn : WalkFunc σ) (ds : List Str)
    (hds : ∀ c ∈ ds, ValidName c) :
    ∀ (entries : Entries) (cs : List Str) (s : σ), entries.wf = true → (∀ c ∈ cs, ValidName c) →
      walkEntries walkFn (pathOf (ds ++ cs)) entries s =
        runVisits walkFn ds (entries.visits cs) s
  | .nil, cs, s, _, _ => by simp [walkEntries, Entries.visits, runVisits]
  | .cons name node rest, cs, s, hwf, hcs => by
    simp only [Entries.wf, Bool.and_eq_true, decide_eq_true_eq] at hwf
    obtain ⟨⟨⟨hname, _⟩, hnode⟩, hrest⟩ := hwf
    have hall : ∀ c ∈ ds ++ cs, ValidName c := by
      intro c hc
      rcases List.mem_append.1 hc with h | h
      · exact hds c h
      · exact hcs c h
    have hcs2 : ∀ c ∈ cs ++ [name], ValidName c := by
      intro c hc
      rcases List.mem_append.1 hc with h | h
      · exact hcs c h
      · simp at h; subst h; exact hname
    simp only [walkEntries, Entries.visits, runVisits_append]
    rw [Join_pathOf (ds ++ cs) name hall hname, List.append_assoc,
      walk_eq_runVisits walkFn ds hds node (cs ++ [name]) s hnode hcs2]
    rcases runVisits walkFn ds (node.visits (cs ++ [name])) s with ⟨s1, _ | e⟩
    · simp only
      exact walkEntries_eq_runVisits walkFn ds hds rest cs s1 hrest hcs
    · rfl
end

/-! ## `Ext` and `TrimSuffix` -/

theorem extScan_sep (l x acc : Str) (hl : Separator ∉ l) :
    extScan (l ++ Separator :: x) acc = extScan l acc := by
  induction l generalizing acc with
  | nil => simp [extScan]
  | cons c l ih =>
    have hc : c ≠ Separator := fun h => hl (by simp [h])
    have hl2 : Separator ∉ l := fun h => hl (by simp [h])
    rw [List.cons_append, extScan, if_neg hc, ih _ hl2]
    conv_rhs => rw [extScan, if_neg hc]

theorem Ext_sep (pre n : Str) (hn : Separator ∉ n) : Ext (pre ++ Separator :: n) = Ext n := by
  unfold Ext
  rw [List.reverse_append, List.reverse_cons, List.append_assoc]
  exact extScan_sep n.reverse _ [] (by simpa using hn)

theorem extScan_spec (l acc : Str) :
    extScan l acc = [] ∨
      ((extScan l acc).head? = some '.' ∧ ∃ pre, l.reverse ++ acc = pre ++ extScan l acc) := by
  induction l generalizing acc with
  | nil => left; rfl
  | cons c l ih =>
    unfold extScan
    by_cases h1 : c = Separator
    · left; simp [h1]
    · by_cases h2 : c = '.'
      · right
        rw [if_neg h1, if_pos h2]
        exact ⟨by simp [h2], l.reverse, by simp⟩
      · simp only [h1, h2, if_false]
        rcases ih (c :: acc) with h | ⟨h3, pre, h4⟩
        · left; exact h
        · right
          exact ⟨h3, pre, by simpa using h4⟩

theorem Ext_head (p : Str) : Ext p = [] ∨ (Ext p).head? = some '.' := by
  rcases extScan_spec p.reverse [] with h | ⟨h, _⟩
  · left; exact h
  · right; exact h

theorem Ext_suffix (p : Str) : ∃ stem, p = stem ++ Ext p := by
  rcases extScan_spec p.reverse [] with h | ⟨_, pre, h⟩
  · exact ⟨p, by simp [Ext, h]⟩
  · exact ⟨pre, by simpa [Ext] using h⟩

theorem extScan_dot (l y acc : Str) (hdot : '.' ∉ l) (hsep : Separator ∉ l) :
    extScan (l ++ '.' :: y) acc = '.' :: (l.reverse ++ acc) := by
  induction l generalizing acc with
  | nil => simp [extScan, Separator]
  | cons c l ih =>
    have hc : c ≠ Separator := fun h => hsep (by simp [h])
    have hc2 : c ≠ '.' := fun h => hdot (by simp [h])
    have h1 : '.' ∉ l := fun h => hdot (by simp [h])
    have h2 : Separator ∉ l := fun h => hsep (by simp [h])
    rw [List.cons_append, extScan, if_neg hc, if_neg hc2, ih _ h1 h2]
    simp

theorem Ext_of_suffix (q e : Str) (hdot : '.' ∉ e) (hsep : Separator ∉ e) :
    Ext (q ++ '.' :: e) = '.' :: e := by
  unfold Ext
  rw [List.reverse_append, List.reverse_cons, List.append_assoc]
  have := extScan_dot e.reverse q.reverse [] (by simpa using hdot) (by simpa using hsep)
  simpa using this

theorem HasSuffix_append (a e : Str) : HasSuffix (a ++ e) e = true := by
  simp [HasSuffix]

theorem TrimSuffix_append (a e : Str) : TrimSuffix (a ++ e) e = a := by
  simp [TrimSuffix, HasSuffix_append]

theorem TrimSuffix_inj (s1 s2 e : Str) (h1 : ∃ a, s1 = a ++ e) (h2 : ∃ a, s2 = a ++ e)
    (h : TrimSuffix s1 e = TrimSuffix s2 e) : s1 = s2 := by
  obtain ⟨a, rfl⟩ := h1
  obtain ⟨b, rfl⟩ := h2
  rw [TrimSuffix_append, TrimSuffix_append] at h
  rw [h]

/-! ## One call of `walkFunc` -/

theorem Rel_relOf (ds cs : List Str) (hds : ∀ c ∈ ds, ValidName c)
    (hcs : ∀ c ∈ cs, ValidName c) : Rel (pathOf ds) (pathOf (ds ++ cs)) = .ok (relOf cs) := by
  by_cases h : cs = []
  · subst h
    simp [Rel, relOf]
  · rw [Rel_pathOf ds cs hds hcs h]
    simp [relOf, h]

theorem walkFunc_step (E : Engine) (t : Template) (ds : List Str)
    (hdir : t.dir = pathOf ds) (hds : ∀ c ∈ ds, ValidName c)
    (v : List Str × WalkArg) (hv : ∀ c ∈ v.1, ValidName c)
    (root : TemplateSet) (hroot : root.funcs = []) :
    walkFunc E t (pathOf (ds ++ v.1)) v.2 root =
      match visitError E ds t.ext v with
      | some e => ((walkFunc E t (pathOf (ds ++ v.1)) v.2 root).1, some e)
      | none =>
        match visitLoad E ds t.ext v with
        | some d => (root.define E d, none)
        | none => (root, none) := by
  obtain ⟨entries, inc, funcs, own⟩ := root
  simp only at hroot
  subst hroot
  obtain ⟨cs, arg⟩ := v
  cases arg with
  | failed e => simp [walkFunc, visitError]
  | entry info err =>
    cases err with
    | some e => simp [walkFunc, visitError]
    | none =>
      by_cases hreg : info.IsRegular = false
      · simp [walkFunc, visitError, visitLoad, isTemplateFile, hreg]
      · by_cases hext : Ext (pathOf (ds ++ cs)) = t.ext
        · have hreg2 : info.IsRegular = true := by simpa using hreg
          have htf : isTemplateFile ds t.ext (cs, .entry info none) = true := by
            simp [isTemplateFile, hreg2, hext]
          simp only [walkFunc, visitError, visitLoad, htf, hreg2, hext, hdir,
            Rel_relOf ds cs hds hv, if_true, Bool.true_eq_false, if_false, ne_eq,
            not_true_eq_false]
          cases hdata : info.data with
          | error e => simp [TemplateSet.New]
          | ok text =>
            simp only [TemplateSet.New, templateName, parseError]
            by_cases hname : TrimSuffix (relOf cs) t.ext = [] ∧ own = true
            · simp only [hname, and_self, if_true, TemplateSet.Parse]
              cases E.parse [] [] text with
              | error e => simp
              | ok trees => simp [TemplateSet.define, hname]
            · simp only [hname, if_false, TemplateSet.Parse]
              cases E.parse [] (TrimSuffix (relOf cs) t.ext) text with
              | error e => simp
              | ok trees => simp [TemplateSet.define, hname]
        · have hreg2 : info.IsRegular = true := by simpa using hreg
          simp [walkFunc, visitError, visitLoad, isTemplateFile, hreg2, hext]

/-! ## The whole walk of `Load` -/

mutual
theorem node_visits_valid :
    ∀ (node : Node) (cs : List Str), node.wf = true → (∀ c ∈ cs, ValidName c) →
      ∀ v ∈ node.visits cs, ∀ c ∈ v.1, ValidName c
  | .missing e, cs, _, hcs, v, hv => by
    simp only [Node.visits, List.mem_singleton] at hv
    subst hv; exact hcs
  | .file mode data, cs, _, hcs, v, hv => by
    simp only [Node.visits, List.mem_singleton] at hv
    subst hv; exact hcs
  | .dir readErr entries, cs, hwf, hcs, v, hv => by
    simp only [Node.visits, List.mem_cons] at hv
    rcases hv with rfl | hv
    · exact hcs
    · cases readErr with
      | some e => simp at hv
      | none => exact entries_visits_valid entries cs (by simpa [Node.wf] using hwf) hcs v hv
theorem entries_visits_valid :
    ∀ (entries : Entries) (cs : List Str), entries.wf = true → (∀ c ∈ cs, ValidName c) →
      ∀ v ∈ entries.visits cs, ∀ c ∈ v.1, ValidName c
  | .nil, cs, _, _, v, hv => by simp [Entries.visits] at hv
  | .cons name node rest, cs, hwf, hcs, v, hv => by
    simp only [Entries.wf, Bool.and_eq_true, decide_eq_true_eq] at hwf
    obtain ⟨⟨⟨hname, _⟩, hnode⟩, hrest⟩ := hwf
    simp only [Entries.visits, List.mem_append] at hv
    rcases hv with hv | hv
    · refine node_visits_valid node (cs ++ [name]) hnode ?_ v hv
      intro c hc
      rcases List.mem_append.1 hc with h | h
      · exact hcs c h
      · simp at h; subst h; exact hname
    · exact entries_visits_valid rest cs hrest hcs v hv
end

theorem foldl_associate_funcs (E : Engine) (l : List (Str × Str)) (root : TemplateSet) :
    (l.foldl (TemplateSet.associate E) root).funcs = root.funcs ∧
    (l.foldl (TemplateSet.associate E) root).own = root.own := by
  induction l generalizing root with
  | nil => exact ⟨rfl, rfl⟩
  | cons d l ih =>
    rw [List.foldl_cons]
    have h := ih (root.associate E d)
    have h2 : (root.associate E d).funcs = root.funcs ∧ (root.associate E d).own = root.own := by
      unfold TemplateSet.associate
      split <;> exact ⟨rfl, rfl⟩
    exact ⟨h.1.trans h2.1, h.2.trans h2.2⟩

theorem define_funcs (E : Engine) (root : TemplateSet) (d : Str × List (Str × Str))
    (h : root.funcs = []) : (root.define E d).funcs = [] := by
  unfold TemplateSet.define
  split
  · rfl
  · simp only
    rw [(foldl_associate_funcs E d.2 _).1]
    exact h

theorem runVisits_walkFunc (E : Engine) (t : Template) (ds : List Str)
    (hdir : t.dir = pathOf ds) (hds : ∀ c ∈ ds, ValidName c)
    (vs : List (List Str × WalkArg)) (hvs : ∀ v ∈ vs, ∀ c ∈ v.1, ValidName c)
    (root : TemplateSet) (hroot : root.funcs = []) :
    (runVisits (walkFunc E t) ds vs root).2 = vs.findSome? (visitError E ds t.ext) ∧
    (vs.findSome? (visitError E ds t.ext) = none →
      (runVisits (walkFunc E t) ds vs root).1 =
        (vs.filterMap (visitLoad E ds t.ext)).foldl (TemplateSet.define E) root) := by
  induction vs generalizing root with
  | nil => simp [runVisits]
  | cons v vs ih =>
    have hstep := walkFunc_step E t ds hdir hds v (hvs v (by simp)) root hroot
    have hvs2 : ∀ u ∈ vs, ∀ c ∈ u.1, ValidName c := fun u hu => hvs u (by simp [hu])
    simp only [runVisits, List.findSome?_cons, List.filterMap_cons]
    cases hve : visitError E ds t.ext v with
    | some e =>
      rw [hve] at hstep
      rw [hstep]
      simp
    | none =>
      rw [hve] at hstep
      cases hvl : visitLoad E ds t.ext v with
      | some d =>
        rw [hvl] at hstep
        rw [hstep]
        simp only [List.foldl_cons]
        exact ih hvs2 (root.define E d) (define_funcs E root d hroot)
      | none =>
        rw [hvl] at hstep
        rw [hstep]
        exact ih hvs2 root hroot

/-- The template set a successful `Load` builds from the visits of the tree. -/
theorem Load_spec (E : Engine) (fs : Node) (t : Template) (ds : List Str)
    (hdir : t.dir = pathOf ds) (hds : ∀ c ∈ ds, ValidName c) (hwf : fs.wf = true) :
    Load E fs t =
      match (fs.visits []).findSome? (visitError E ds t.ext) with
      | some e => (t, some e)
      | none =>
        let root := ((fs.visits []).filterMap (visitLoad E ds t.ext)).foldl
          (TemplateSet.define E) TemplateSet.empty
        ({ t with template := some (match t.funcs with
            | some funcs => root.Funcs funcs
            | none => root) }, none) := by
  have hw := walk_eq_runVisits (walkFunc E t) ds hds fs [] TemplateSet.empty hwf (by simp)
  have hr := runVisits_walkFunc E t ds hdir hds (fs.visits [])
    (node_visits_valid fs [] hwf (by simp)) TemplateSet.empty rfl
  simp only [List.append_nil] at hw
  rw [← hdir] at hw
  simp only [Load, Walk, hw]
  rcases hrun : runVisits (walkFunc E t) ds (fs.visits []) TemplateSet.empty with ⟨r, err⟩
  rw [hrun] at hr
  obtain ⟨h1, h2⟩ := hr
  simp only at h1 h2
  rw [← h1]
  cases err with
  | some e => rfl
  | none =>
    simp only
    rw [h2 h1.symm]

/-! ## `Clean` of a rooted path is a cleaned absolute path -/

theorem cleanBackup_sep (l Y : Str) (hl : Separator ∉ l) (hY : Y ≠ []) :
    cleanBackup 1 (l ++ Separator :: Y) = Y := by
  induction l with
  | nil =>
    rw [List.nil_append, cleanBackup, if_neg (fun h => h.2 rfl)]
  | cons c l ih =>
    have hc : c ≠ Separator := fun h => hl (by simp [h])
    have hl2 : Separator ∉ l := fun h => hl (by simp [h])
    have hlen : 1 < (l ++ Separator :: Y).length := by
      have := List.length_pos.2 hY
      simp; omega
    rw [List.cons_append, cleanBackup, if_pos ⟨hlen, hc⟩]
    exact ih hl2

theorem cleanBackup_root (l : Str) (hl : Separator ∉ l) (hne : l ≠ []) :
    cleanBackup 1 (l ++ [Separator]) = [Separator] := by
  induction l with
  | nil => exact absurd rfl hne
  | cons c l ih =>
    have hc : c ≠ Separator := fun h => hl (by simp [h])
    have hl2 : Separator ∉ l := fun h => hl (by simp [h])
    by_cases hlnil : l = []
    · subst hlnil
      rw [List.cons_append, List.nil_append, cleanBackup,
        if_neg (fun h => absurd h.1 (by simp))]
    · have hlen : 1 < (l ++ [Separator]).length := by
        have := List.length_pos.2 hlnil
        simp; omega
      rw [List.cons_append, cleanBackup, if_pos ⟨hlen, hc⟩]
      exact ih hl2 hlnil

theorem valid_append_single (cs : List Str) (n : Str) (hcs : ∀ c ∈ cs, ValidName c)
    (hn : ValidName n) : ∀ c ∈ cs ++ [n], ValidName c := by
  intro c hc
  rcases List.mem_append.1 hc with h | h
  · exact hcs c h
  · simp at h; subst h; exact hn

theorem pathOf_rev_length (cs : List Str) (hcs : ∀ c ∈ cs, ValidName c) :
    (pathOf cs).reverse.length ≠ 1 ↔ cs ≠ [] := by
  constructor
  · intro h hnil
    subst hnil
    simp [pathOf, restOf] at h
  · intro h
    have := mt (restOf_eq_nil cs hcs).1 h
    simp [pathOf]
    exact this

theorem cleanBackup_path (cs : List Str) (hcs : ∀ c ∈ cs, ValidName c) (hne : cs ≠ []) :
    cleanBackup 1 (pathOf cs).reverse = (pathOf cs.dropLast).reverse := by
  have hsplit := (List.dropLast_append_getLast hne).symm
  have hn : ValidName (cs.getLast hne) := hcs _ (List.getLast_mem hne)
  have hinit : ∀ c ∈ cs.dropLast, ValidName c := fun c hc => hcs c (List.mem_of_mem_dropLast hc)
  conv_lhs => rw [hsplit, pathOf_append_single _ _ hinit]
  by_cases h : cs.dropLast = []
  · have hl : ¬ (pathOf cs.dropLast).reverse.length ≠ 1 := by
      rw [pathOf_rev_length _ hinit]; simpa using h
    rw [if_neg hl, h]
    simp only [pathOf, restOf, List.reverse_cons, List.reverse_nil, List.nil_append]
    exact cleanBackup_root _ (by simpa using hn.2.1) (by simpa using hn.1)
  · have hl : (pathOf cs.dropLast).reverse.length ≠ 1 :=
      (pathOf_rev_length _ hinit).2 h
    rw [if_pos hl]
    exact cleanBackup_sep _ _ (by simpa using hn.2.1) (by simp [pathOf])

theorem takeWhile_sep_nil (tl : Str)
    (h : tl.takeWhile (fun c => c != Separator) = []) :
    tl = [] ∨ tl.head? = some Separator := by
  cases tl with
  | nil => left; rfl
  | cons c tl =>
    right
    by_cases hc : c = Separator
    · simp [hc]
    · have hb : (c != Separator) = true := by simp [hc]
      simp [List.takeWhile, hb] at h

theorem cleanLoop_rooted (input : Str) :
    ∀ (mode : CleanMode) (out : Str), CleanInv mode input out →
      ∃ cs, (∀ c ∈ cs, ValidName c) ∧ cleanLoop true mode input out 1 = (pathOf cs).reverse := by
  induction input with
  | nil =>
    intro mode out hinv
    cases mode with
    | start =>
      obtain ⟨cs, hcs, rfl⟩ := hinv
      exact ⟨cs, hcs, by simp [cleanLoop]⟩
    | skip =>
      obtain ⟨cs, hcs, rfl⟩ := hinv
      exact ⟨cs, hcs, by simp [cleanLoop]⟩
    | copy =>
      obtain ⟨cs, p, hcs, _, _, hv, rfl⟩ := hinv
      simp only [List.takeWhile_nil, List.append_nil] at hv
      exact ⟨cs ++ [p], valid_append_single cs p hcs hv,
        by rw [cleanLoop, pathOf_append_single cs p hcs]⟩
  | cons c tl ih =>
    intro mode out hinv
    cases mode with
    | skip =>
      obtain ⟨cs, hcs, rfl⟩ := hinv
      rw [cleanLoop]
      exact ih .start _ ⟨cs, hcs, rfl⟩
    | copy =>
      obtain ⟨cs, p, hcs, hp, hsep, hv, rfl⟩ := hinv
      rw [cleanLoop]
      by_cases hc : c = Separator
      · rw [if_pos hc]
        have hb : (c != Separator) = false := by simp [hc]
        simp only [List.takeWhile, hb, List.append_nil] at hv
        exact ih .start _ ⟨cs ++ [p], valid_append_single cs p hcs hv,
          (pathOf_append_single cs p hcs).symm⟩
      · rw [if_neg hc]
        have hb : (c != Separator) = true := by simp [hc]
        simp only [List.takeWhile, hb] at hv
        refine ih .copy _ ⟨cs, p ++ [c], hcs, by simp, ?_, ?_, by simp⟩
        · intro h
          rcases List.mem_append.1 h with h | h
          · exact hsep h
          · simp at h; exact hc h.symm
        · simpa using hv
    | start =>
      obtain ⟨cs, hcs, rfl⟩ := hinv
      rw [cleanLoop]
      by_cases hc : c = Separator
      · rw [if_pos hc]
        exact ih .start _ ⟨cs, hcs, rfl⟩
      · rw [if_neg hc]
        by_cases h1 : c = '.' ∧ (tl = [] ∨ tl.head? = some Separator)
        · rw [if_pos h1]
          exact ih .start _ ⟨cs, hcs, rfl⟩
        · rw [if_neg h1]
          by_cases h2 : c = '.' ∧ tl.head? = some '.' ∧
              (tl.tail = [] ∨ tl.tail.head? = some Separator)
          · rw [if_pos h2]
            by_cases h3 : 1 < (pathOf cs).reverse.length
            · rw [if_pos h3]
              have hne : cs ≠ [] := by
                intro h; subst h; simp [pathOf, restOf] at h3
              rw [cleanBackup_path cs hcs hne]
              exact ih .skip _ ⟨cs.dropLast,
                fun x hx => hcs x (List.mem_of_mem_dropLast hx), rfl⟩
            · rw [if_neg h3, if_neg (by simp)]
              exact ih .skip _ ⟨cs, hcs, rfl⟩
          · rw [if_neg h2]
            refine ih .copy _ ⟨cs, [c], hcs, by simp, by simpa using Ne.symm hc, ?_, ?_⟩
            · refine ⟨by simp, ?_, ?_, ?_⟩
              · intro h
                rcases List.mem_append.1 h with h | h
                · simp at h; exact hc h.symm
                · have := (List.mem_takeWhile_imp h)
                  simp at this
              · intro h
                have hlen := congrArg List.length h
                simp only [List.length_append, List.length_singleton] at hlen
                have ht : tl.takeWhile (fun c => c != Separator) = [] :=
                  List.length_eq_zero.1 (by omega)
                rw [ht] at h
                simp only [List.append_nil, List.cons.injEq, and_true] at h
                exact h1 ⟨h, takeWhile_sep_nil tl ht⟩
              · intro h
                simp only [List.singleton_append, List.cons.injEq] at h
                obtain ⟨hcdot, ht⟩ := h
                cases tl with
                | nil => simp at ht
                | cons d tl2 =>
                  by_cases hd : d = Separator
                  · have hb : (d != Separator) = false := by simp [hd]
                    simp [List.takeWhile, hb] at ht
                  · have hb : (d != Separator) = true := by simp [hd]
                    simp only [List.takeWhile, hb, List.cons.injEq] at ht
                    exact h2 ⟨hcdot, by simp [ht.1], by
                      simpa using takeWhile_sep_nil tl2 ht.2⟩
            · simp

/-- A rooted path is cleaned to `/c1/.../ck` with valid elements. -/
theorem Clean_rooted (x : Str) :
    ∃ cs, (∀ c ∈ cs, ValidName c) ∧ Clean (Separator :: x) = pathOf cs := by
  obtain ⟨cs, hcs, h⟩ := cleanLoop_rooted x .start [Separator] ⟨[], by simp, by simp [pathOf, restOf]⟩
  refine ⟨cs, hcs, ?_⟩
  simp only [Clean, decide_True, if_true, h]
  simp [pathOf]

/-- The directory `filepath.Abs` returns is a cleaned absolute path, provided the
working directory is absolute. -/
theorem Abs_pathOf (cwd : Except Error Str) (path d : Str)
    (hcwd : ∀ wd, cwd = .ok wd → IsAbs wd = true) (h : Abs cwd path = .ok d) :
    ∃ ds, (∀ c ∈ ds, ValidName c) ∧ d = pathOf ds := by
  have habs : ∀ p : Str, IsAbs p = true → ∃ x, p = Separator :: x := by
    intro p hp
    cases p with
    | nil => simp [IsAbs] at hp
    | cons c x => simp [IsAbs] at hp; exact ⟨x, by rw [hp]⟩
  unfold Abs at h
  by_cases hp : IsAbs path = true
  · obtain ⟨x, rfl⟩ := habs path hp
    rw [if_pos hp] at h
    obtain ⟨ds, hds, hc⟩ := Clean_rooted x
    exact ⟨ds, hds, by simp only [Except.ok.injEq] at h; rw [← h, hc]⟩
  · rw [if_neg hp] at h
    cases hw : cwd with
    | error e => rw [hw] at h; simp at h
    | ok wd =>
      rw [hw] at h
      simp only [Except.ok.injEq] at h
      obtain ⟨x, rfl⟩ := habs wd (hcwd wd hw)
      unfold Join at h
      simp only [List.cons_ne_nil, false_and, if_false] at h
      by_cases hpath : path = []
      · rw [if_pos hpath] at h
        obtain ⟨ds, hds, hc⟩ := Clean_rooted x
        exact ⟨ds, hds, by rw [← h, hc]⟩
      · rw [if_neg hpath] at h
        obtain ⟨ds, hds, hc⟩ := Clean_rooted (x ++ Separator :: path)
        exact ⟨ds, hds, by rw [← h]; simpa using hc⟩


/-! ## Properties of the registry -/

theorem Load_fields (E : Engine) (fs : Node) (t : Template) :
    (Load E fs t).1.dir = t.dir ∧ (Load E fs t).1.ext = t.ext ∧
      (Load E fs t).1.funcs = t.funcs := by
  rcases hW : Walk t.dir fs (walkFunc E t) TemplateSet.empty with ⟨r, _ | e⟩ <;>
    simp [Load, hW]

theorem Load_error_state (E : Engine) (fs : Node) (t : Template) (e : Error)
    (h : (Load E fs t).2 = some e) : (Load E fs t).1 = t := by
  rcases hW : Walk t.dir fs (walkFunc E t) TemplateSet.empty with ⟨r, _ | e2⟩
  · simp [Load, hW] at h
  · simp [Load, hW]

/-- C3: when `Load` returns an error the registry is exactly what it was before the call
(template set, directory, extension and helper mapping), so every `Render` gives what it
gave before. -/
theorem Load_atomic_on_failure (E : Engine) (fs : Node) (t : Template) (e : Error)
    (h : (Load E fs t).2 = some e) :
    (Load E fs t).1 = t ∧
      (Load E fs t).1.template = t.template ∧ (Load E fs t).1.dir = t.dir ∧
      (Load E fs t).1.ext = t.ext ∧ (Load E fs t).1.funcs = t.funcs ∧
      ∀ (w name : Str) (data : Data),
        (Load E fs t).1.Render E w name data = t.Render E w name data := by
  have h1 := Load_error_state E fs t e h
  refine ⟨h1, ?_, ?_, ?_, ?_, ?_⟩ <;> simp [h1]

theorem Load_atomic_on_failure_witness :
    (Load miniEngine brokenTree viewsRegistry).2 =
        some (.parse "Hello, \x7b\x7b.Name".toList) ∧
      (Load miniEngine brokenTree viewsRegistry).1 = viewsRegistry :=
  ⟨by decide,
   (Load_atomic_on_failure miniEngine brokenTree viewsRegistry
     (.parse "Hello, \x7b\x7b.Name".toList) (by decide)).1⟩

theorem Lookup_none (root : TemplateSet) (name : Str)
    (h : name ∉ root.entries.map Prod.fst) : root.Lookup name = none := by
  unfold TemplateSet.Lookup
  have : root.entries.find? (fun e => decide (e.1 = name)) = none := by
    rw [List.find?_eq_none]
    intro x hx hxe
    apply h
    simp only [decide_eq_true_eq] at hxe
    rw [← hxe]
    exact List.mem_map_of_mem Prod.fst hx
  rw [this]
  split <;> rfl

/-- C4: for a registry with an active set and a name that is not among the loaded
entries, `Render` returns the lookup error and leaves the sink as it was, whatever the
data. -/
theorem Render_unloaded (E : Engine) (t : Template) (root : TemplateSet) (w name : Str)
    (data : Data) (ht : t.template = some root) (hname : name ∉ root.entries.map Prod.fst) :
    t.Render E w name data = some (w, some (.noTemplate name)) := by
  unfold Template.Render
  rw [ht]
  simp [TemplateSet.ExecuteTemplate, Lookup_none root name hname]

theorem Render_unloaded_witness :
    viewsRegistry.Render miniEngine "sent: ".toList "missing".toList
        [("Name".toList, "Ann".toList)] =
      some ("sent: ".toList, some (.noTemplate "missing".toList)) :=
  Render_unloaded miniEngine viewsRegistry _ "sent: ".toList "missing".toList
    [("Name".toList, "Ann".toList)] rfl (by decide)

/-- C8: `NewTemplate` returns an error (and no registry) exactly when `filepath.Abs`
fails or the initial `Load` fails, with that error; otherwise it returns the registry
that `Load` produced, whose `Dir()` is the absolute directory and whose `Ext()` is the
extension given. -/
theorem NewTemplate_result (E : Engine) (w : World) (dir ext : Str) :
    (∀ e, NewTemplate E w dir ext = .error e ↔
      (Abs w.cwd dir = .error e ∨
        ∃ d, Abs w.cwd dir = .ok d ∧ (Load E (w.tree d) ⟨none, d, ext, none⟩).2 = some e)) ∧
    (∀ t, NewTemplate E w dir ext = .ok t ↔
      ∃ d, Abs w.cwd dir = .ok d ∧ Load E (w.tree d) ⟨none, d, ext, none⟩ = (t, none)) ∧
    (∀ t, NewTemplate E w dir ext = .ok t →
      ∃ d, Abs w.cwd dir = .ok d ∧ t.Dir = d ∧ t.Ext = ext ∧
        t.template = (Load E (w.tree d) ⟨none, d, ext, none⟩).1.template) := by
  have key : ∀ t, NewTemplate E w dir ext = .ok t ↔
      ∃ d, Abs w.cwd dir = .ok d ∧ Load E (w.tree d) ⟨none, d, ext, none⟩ = (t, none) := by
    intro t
    unfold NewTemplate
    cases hab : Abs w.cwd dir with
    | error e => simp
    | ok d =>
      simp only [Except.ok.injEq, exists_eq_left']
      rcases hl : Load E (w.tree d) ⟨none, d, ext, none⟩ with ⟨t1, _ | e⟩
      · simp
      · simp
  refine ⟨?_, key, ?_⟩
  · intro e
    unfold NewTemplate
    cases hab : Abs w.cwd dir with
    | error e2 => simp
    | ok d =>
      simp only [Except.ok.injEq, exists_eq_left', false_or]
      rcases hl : Load E (w.tree d) ⟨none, d, ext, none⟩ with ⟨t1, _ | e2⟩
      · simp
      · simp
  · intro t ht
    obtain ⟨d, hd, hl⟩ := (key t).1 ht
    have hf := Load_fields E (w.tree d) ⟨none, d, ext, none⟩
    rw [hl] at hf
    exact ⟨d, hd, hf.1, hf.2.1, by rw [hl]⟩

theorem walkFunc_skip (E : Engine) (t : Template) (path : Str) (info : FileInfo)
    (root : TemplateSet) (h : info.IsRegular = false ∨ Ext path ≠ t.ext) :
    walkFunc E t path (.entry info none) root = (root, none) := by
  unfold walkFunc
  by_cases hreg : info.IsRegular = false
  · simp [hreg]
  · rcases h with h | h
    · exact absurd h hreg
    · simp [hreg, h]

theorem findSome?_first {α β : Type} (f : α → Option β) (pre post : List α) (v : α) (b : β)
    (hpre : ∀ u ∈ pre, f u = none) (hv : f v = some b) :
    (pre ++ v :: post).findSome? f = some b ∧ (pre ++ [v]).findSome? f = some b := by
  have h0 : pre.findSome? f = none := List.findSome?_eq_none_iff.2 hpre
  constructor
  · rw [List.findSome?_append, h0]
    simp [List.findSome?_cons, hv]
  · rw [List.findSome?_append, h0]
    simp [List.findSome?_cons, hv]

/-- C9: the error `Load` returns is the one of the first entry, in walk order, for which
the walk reports an error or which is a template file that cannot be read or parsed;
`Load` fails if and only if there is such an entry; the walk then is the run of the
callback over the entries up to and including that one; and an entry that is not a
regular file or has another extension is passed over without error whatever its
contents. -/
theorem Load_first_failure (E : Engine) (fs : Node) (t : Template) (ds : List Str)
    (hdir : t.dir = pathOf ds) (hds : ∀ c ∈ ds, ValidName c) (hwf : fs.wf = true) :
    (Load E fs t).2 = (fs.visits []).findSome? (visitError E ds t.ext) ∧
    ((∃ e, (Load E fs t).2 = some e) ↔
      ∃ v ∈ fs.visits [], ∃ e, visitError E ds t.ext v = some e) ∧
    (∀ pre v post e, fs.visits [] = pre ++ v :: post →
      (∀ u ∈ pre, visitError E ds t.ext u = none) → visitError E ds t.ext v = some e →
      (Load E fs t).2 = some e ∧
        Walk t.dir fs (walkFunc E t) TemplateSet.empty =
          runVisits (walkFunc E t) ds (pre ++ [v]) TemplateSet.empty) ∧
    (∀ path info root, (info.IsRegular = false ∨ Ext path ≠ t.ext) →
      walkFunc E t path (.entry info none) root = (root, none)) := by
  have h1 : (Load E fs t).2 = (fs.visits []).findSome? (visitError E ds t.ext) := by
    rw [Load_spec E fs t ds hdir hds hwf]
    cases (fs.visits []).findSome? (visitError E ds t.ext) <;> rfl
  refine ⟨h1, ?_, ?_, fun path info root h => walkFunc_skip E t path info root h⟩
  · rw [h1]
    constructor
    · rintro ⟨e, he⟩
      obtain ⟨l1, v, l2, hl, hve, _⟩ := List.findSome?_eq_some_iff.1 he
      exact ⟨v, by rw [hl]; simp, e, hve⟩
    · rintro ⟨v, hv, e, he⟩
      cases hf : (fs.visits []).findSome? (visitError E ds t.ext) with
      | some e2 => exact ⟨e2, rfl⟩
      | none =>
        have := List.findSome?_eq_none_iff.1 hf v hv
        rw [he] at this
        exact absurd this (by simp)
  · intro pre v post e hsplit hpre hv
    obtain ⟨f1, f2⟩ := findSome?_first (visitError E ds t.ext) pre post v e hpre hv
    refine ⟨by rw [h1, hsplit, f1], ?_⟩
    have hw := walk_eq_runVisits (walkFunc E t) ds hds fs [] TemplateSet.empty hwf (by simp)
    simp only [List.append_nil] at hw
    have hvalid := node_visits_valid fs [] hwf (by simp)
    have hr := (runVisits_walkFunc E t ds hdir hds (pre ++ [v]) (by
      intro u hu
      apply hvalid u
      rw [hsplit]
      rcases List.mem_append.1 hu with h | h
      · exact List.mem_append_left _ h
      · simp at h; subst h; simp) TemplateSet.empty rfl).1
    rw [f2] at hr
    unfold Walk
    rw [hdir, hw, hsplit]
    have happ : pre ++ v :: post = (pre ++ [v]) ++ post := by simp
    rw [happ, runVisits_append]
    rcases hrun : runVisits (walkFunc E t) ds (pre ++ [v]) TemplateSet.empty with ⟨s1, err⟩
    rw [hrun] at hr
    simp only at hr
    subst hr
    rfl

/-! ## Where the entries of the installed set come from -/

theorem associate_mem (E : Engine) (root : TemplateSet) (x e : Str × Str)
    (h : e ∈ (root.associate E x).entries) : e = x ∨ e ∈ root.entries := by
  unfold TemplateSet.associate at h
  split at h
  · exact Or.inr h
  · simp only [List.mem_cons, List.mem_filter] at h
    rcases h with h | h
    · exact Or.inl h
    · exact Or.inr h.1

theorem foldl_associate_mem (E : Engine) (l : List (Str × Str)) (root : TemplateSet)
    (e : Str × Str) (h : e ∈ (l.foldl (TemplateSet.associate E) root).entries) :
    e ∈ l ∨ e ∈ root.entries := by
  induction l generalizing root with
  | nil => exact Or.inr h
  | cons x l ih =>
    rcases ih (root.associate E x) h with h1 | h1
    · exact Or.inl (by simp [h1])
    · rcases associate_mem E root x e h1 with h2 | h2
      · exact Or.inl (by simp [h2])
      · exact Or.inr h2

theorem define_mem (E : Engine) (root : TemplateSet) (d : Str × List (Str × Str))
    (e : Str × Str) (h : e ∈ (root.define E d).entries) : e ∈ d.2 ∨ e ∈ root.entries := by
  unfold TemplateSet.define at h
  split at h
  · simp at h
  · exact foldl_associate_mem E d.2 { root with incomplete := d.1 :: root.incomplete } e h

theorem foldl_define_mem (E : Engine) (l : List (Str × List (Str × Str)))
    (root : TemplateSet) (e : Str × Str)
    (h : e ∈ (l.foldl (TemplateSet.define E) root).entries) :
    (∃ d ∈ l, e ∈ d.2) ∨ e ∈ root.entries := by
  induction l generalizing root with
  | nil => exact Or.inr h
  | cons d l ih =>
    rcases ih (root.define E d) h with ⟨d2, hd2, he⟩ | h1
    · exact Or.inl ⟨d2, by simp [hd2], he⟩
    · rcases define_mem E root d e h1 with h2 | h2
      · exact Or.inl ⟨d, by simp, h2⟩
      · exact Or.inr h2

theorem visitLoad_some (E : Engine) (ds : List Str) (ext : Str) (v : List Str × WalkArg)
    (d : Str × List (Str × Str)) (h : visitLoad E ds ext v = some d) :
    ∃ info text, v.2 = .entry info none ∧ info.IsRegular = true ∧
      Ext (pathOf (ds ++ v.1)) = ext ∧ d.1 = TrimSuffix (relOf v.1) ext ∧
      info.data = .ok text ∧ E.parse [] (TrimSuffix (relOf v.1) ext) text = .ok d.2 := by
  obtain ⟨cs, arg⟩ := v
  cases arg with
  | failed e2 => simp [visitLoad] at h
  | entry info err =>
    cases err with
    | some e2 => simp [visitLoad] at h
    | none =>
      simp only [visitLoad] at h
      by_cases htf : isTemplateFile ds ext (cs, .entry info none) = true
      · simp only [htf, if_true] at h
        cases hdata : info.data with
        | error e2 => simp [hdata] at h
        | ok text =>
          simp only [hdata, templateName] at h
          cases hp : E.parse [] (TrimSuffix (relOf cs) ext) text with
          | error e2 => simp [hp] at h
          | ok trees =>
            simp only [hp, Option.some.injEq] at h
            simp only [isTemplateFile, Bool.and_eq_true, decide_eq_true_eq] at htf
            refine ⟨info, text, rfl, htf.1, htf.2, ?_, hdata, ?_⟩
            · rw [← h]
            · rw [← h]; exact hp
      · simp [htf] at h

/-- The entries of the set a successful `Load` installs are templates that the text of a
template file of the tree gives rise to. -/
theorem Load_entries_origin (E : Engine) (fs : Node) (t t1 : Template) (ds : List Str)
    (hdir : t.dir = pathOf ds) (hds : ∀ c ∈ ds, ValidName c) (hwf : fs.wf = true)
    (hload : Load E fs t = (t1, none)) :
    ∃ root, t1.template = some root ∧
      ∀ e ∈ root.entries, ∃ cs info text trees,
        (cs, WalkArg.entry info none) ∈ fs.visits [] ∧
        info.IsRegular = true ∧ Ext (pathOf (ds ++ cs)) = t.ext ∧ info.data = .ok text ∧
        E.parse [] (TrimSuffix (relOf cs) t.ext) text = .ok trees ∧ e ∈ trees := by
  rw [Load_spec E fs t ds hdir hds hwf] at hload
  cases hf : (fs.visits []).findSome? (visitError E ds t.ext) with
  | some e => rw [hf] at hload; simp at hload
  | none =>
    rw [hf] at hload
    simp only [Prod.mk.injEq, and_true] at hload
    have hmem : ∀ e ∈ (((fs.visits []).filterMap (visitLoad E ds t.ext)).foldl
        (TemplateSet.define E) TemplateSet.empty).entries,
        ∃ cs info text trees, (cs, WalkArg.entry info none) ∈ fs.visits [] ∧
        info.IsRegular = true ∧ Ext (pathOf (ds ++ cs)) = t.ext ∧ info.data = .ok text ∧
        E.parse [] (TrimSuffix (relOf cs) t.ext) text = .ok trees ∧ e ∈ trees := by
      intro e he
      rcases foldl_define_mem E _ _ e he with ⟨d, hd, hed⟩ | h
      · obtain ⟨v, hv, hvl⟩ := List.mem_filterMap.1 hd
        obtain ⟨info, text, h1, h2, h3, _, h5, h6⟩ := visitLoad_some E ds t.ext v d hvl
        refine ⟨v.1, info, text, d.2, ?_, h2, h3, h5, h6, hed⟩
        rw [← h1]; exact hv
      · simp [TemplateSet.empty] at h
    rw [← hload]
    cases t.funcs with
    | some funcs => exact ⟨_, rfl, by simpa [TemplateSet.Funcs] using hmem⟩
    | none => exact ⟨_, rfl, hmem⟩

theorem Load_prior (E : Engine) (fs : Node) (t : Template) (prior : Option TemplateSet) :
    Load E fs { t with template := prior } =
      (if (Load E fs t).2 = none then (Load E fs t).1 else { t with template := prior },
        (Load E fs t).2) := by
  have hw : walkFunc E { t with template := prior } = walkFunc E t := rfl
  rcases hW : Walk t.dir fs (walkFunc E t) TemplateSet.empty with ⟨r, _ | e⟩
  · simp [Load, hw, hW]
  · simp [Load, hw, hW]

/-! ## The names and the entries of the installed set -/

theorem associate_names (E : Engine) (root : TemplateSet) (x : Str × Str) (n : Str) :
    n ∈ (root.associate E x).entries.map Prod.fst ↔
      n = x.1 ∨ n ∈ root.entries.map Prod.fst := by
  unfold TemplateSet.associate
  split
  · rename_i h
    constructor
    · intro hn; exact Or.inr hn
    · rintro (hn | hn)
      · obtain ⟨e, he, hex⟩ := List.any_eq_true.1 h.1
        simp only [decide_eq_true_eq] at hex
        rw [hn, ← hex]
        exact List.mem_map_of_mem Prod.fst he
      · exact hn
  · simp only [List.map_cons, List.mem_cons, List.mem_map, List.mem_filter, decide_eq_true_eq]
    constructor
    · rintro (hn | ⟨e, ⟨he, _⟩, rfl⟩)
      · exact Or.inl hn
      · exact Or.inr ⟨e, he, rfl⟩
    · rintro (hn | ⟨e, he, rfl⟩)
      · exact Or.inl hn
      · by_cases hx : e.1 = x.1
        · exact Or.inl hx
        · exact Or.inr ⟨e, ⟨he, hx⟩, rfl⟩

theorem foldl_associate_names (E : Engine) (l : List (Str × Str)) (root : TemplateSet)
    (n : Str) :
    n ∈ (l.foldl (TemplateSet.associate E) root).entries.map Prod.fst ↔
      n ∈ l.map Prod.fst ∨ n ∈ root.entries.map Prod.fst := by
  induction l generalizing root with
  | nil => simp
  | cons x l ih =>
    rw [List.foldl_cons, ih, associate_names]
    simp only [List.map_cons, List.mem_cons]
    tauto

theorem define_names (E : Engine) (root : TemplateSet) (d : Str × List (Str × Str))
    (n : Str) (hd : d.1 ≠ []) :
    n ∈ (root.define E d).entries.map Prod.fst ↔
      n ∈ d.2.map Prod.fst ∨ n ∈ root.entries.map Prod.fst := by
  unfold TemplateSet.define
  rw [if_neg (fun h => hd h.1)]
  exact foldl_associate_names E d.2 { root with incomplete := d.1 :: root.incomplete } n

theorem foldl_define_names (E : Engine) (l : List (Str × List (Str × Str)))
    (root : TemplateSet) (n : Str) (hl : ∀ d ∈ l, d.1 ≠ []) :
    n ∈ (l.foldl (TemplateSet.define E) root).entries.map Prod.fst ↔
      (∃ d ∈ l, n ∈ d.2.map Prod.fst) ∨ n ∈ root.entries.map Prod.fst := by
  induction l generalizing root with
  | nil => simp
  | cons d l ih =>
    rw [List.foldl_cons, ih (root.define E d) (fun x hx => hl x (by simp [hx])),
      define_names E root d n (hl d (by simp))]
    simp only [List.mem_cons, exists_eq_or_imp]
    constructor
    · rintro (h | h | h)
      · exact Or.inl (Or.inr h)
      · exact Or.inl (Or.inl h)
      · exact Or.inr h
    · rintro ((h | h) | h)
      · exact Or.inr (Or.inl h)
      · exact Or.inl h
      · exact Or.inr (Or.inr h)

theorem foldl_associate_entries (E : Engine) (l : List (Str × Str)) (root : TemplateSet)
    (hnd : (l.map Prod.fst).Nodup) (hdis : ∀ x ∈ l, x.1 ∉ root.entries.map Prod.fst) :
    (l.foldl (TemplateSet.associate E) root).entries = l.reverse ++ root.entries := by
  induction l generalizing root with
  | nil => simp
  | cons x l ih =>
    simp only [List.map_cons, List.nodup_cons] at hnd
    have hx : x.1 ∉ root.entries.map Prod.fst := hdis x (by simp)
    have hany : ¬ (root.entries.any (fun e => decide (e.1 = x.1)) = true) := by
      intro h
      obtain ⟨e, he, hex⟩ := List.any_eq_true.1 h
      simp only [decide_eq_true_eq] at hex
      exact hx (by rw [← hex]; exact List.mem_map_of_mem Prod.fst he)
    have hfil : root.entries.filter (fun e => decide (e.1 ≠ x.1)) = root.entries := by
      rw [List.filter_eq_self]
      intro e he
      simp only [decide_eq_true_eq]
      intro h
      exact hx (by rw [← h]; exact List.mem_map_of_mem Prod.fst he)
    have hdef : (root.associate E x).entries = x :: root.entries := by
      unfold TemplateSet.associate
      rw [if_neg (fun h => hany h.1)]
      simp only [hfil]
    rw [List.foldl_cons, ih (root.associate E x) hnd.2]
    · rw [hdef]; simp
    · intro y hy
      rw [hdef]
      simp only [List.map_cons, List.mem_cons, not_or]
      constructor
      · intro h
        exact hnd.1 (by rw [← h]; exact List.mem_map_of_mem Prod.fst hy)
      · exact hdis y (by simp [hy])

theorem foldl_define_entries (E : Engine) (l : List (Str × List (Str × Str)))
    (root : TemplateSet) (hne : ∀ d ∈ l, d.1 ≠ [])
    (hnd : ((l.map Prod.snd).flatten.map Prod.fst).Nodup)
    (hdis : ∀ d ∈ l, ∀ x ∈ d.2, x.1 ∉ root.entries.map Prod.fst) :
    (l.foldl (TemplateSet.define E) root).entries =
      (l.map Prod.snd).flatten.reverse ++ root.entries := by
  induction l generalizing root with
  | nil => simp
  | cons d l ih =>
    simp only [List.map_cons, List.flatten_cons, List.map_append, List.nodup_append] at hnd
    obtain ⟨hnd1, hnd2, hdisj⟩ := hnd
    have hdef : (root.define E d).entries = d.2.reverse ++ root.entries := by
      unfold TemplateSet.define
      rw [if_neg (fun h => hne d (by simp) h.1)]
      exact foldl_associate_entries E d.2 { root with incomplete := d.1 :: root.incomplete }
        hnd1 (hdis d (by simp))
    rw [List.foldl_cons, ih (root.define E d) (fun x hx => hne x (by simp [hx])) hnd2]
    · rw [hdef]; simp
    · intro d2 hd2 x hx
      rw [hdef]
      simp only [List.map_append, List.map_reverse, List.mem_append, List.mem_reverse, not_or]
      constructor
      · intro h
        refine hdisj h ?_
        simp only [List.mem_map, List.mem_flatten]
        exact ⟨x, ⟨d2.2, ⟨d2, hd2, rfl⟩, hx⟩, rfl⟩
      · exact hdis d2 (by simp [hd2]) x hx

theorem visitLoad_of_ok (E : Engine) (ds : List Str) (ext : Str) (v : List Str × WalkArg)
    (herr : visitError E ds ext v = none) :
    (visitLoad E ds ext v).map Prod.fst =
      if isTemplateFile ds ext v then some (templateName ext v.1) else none := by
  obtain ⟨cs, arg⟩ := v
  cases arg with
  | failed e => simp [visitLoad, isTemplateFile]
  | entry info err =>
    cases err with
    | some e => simp [visitLoad, isTemplateFile]
    | none =>
      by_cases htf : isTemplateFile ds ext (cs, .entry info none) = true
      · simp only [visitError, htf, if_true] at herr
        simp only [visitLoad, htf, if_true]
        cases hdata : info.data with
        | error e => rw [hdata] at herr; simp at herr
        | ok text =>
          rw [hdata] at herr
          simp only [parseError] at herr
          cases hp : E.parse [] (templateName ext cs) text with
          | error e => rw [hp] at herr; simp at herr
          | ok trees => simp [hp]
      · simp [visitLoad, htf]

theorem filterMap_visitLoad_names (E : Engine) (ds : List Str) (ext : Str)
    (vs : List (List Str × WalkArg)) (herr : ∀ v ∈ vs, visitError E ds ext v = none) :
    (vs.filterMap (visitLoad E ds ext)).map Prod.fst =
      (vs.filter (isTemplateFile ds ext)).map (fun v => templateName ext v.1) := by
  induction vs with
  | nil => rfl
  | cons v vs ih =>
    have h1 := visitLoad_of_ok E ds ext v (herr v (by simp))
    have ih2 := ih (fun u hu => herr u (by simp [hu]))
    by_cases htf : isTemplateFile ds ext v = true
    · simp only [htf, if_true] at h1
      cases hvl : visitLoad E ds ext v with
      | none => rw [hvl] at h1; simp at h1
      | some d =>
        rw [hvl] at h1
        simp only [Option.map_some', Option.some.injEq] at h1
        simp [List.filterMap_cons, hvl, List.filter_cons, htf, h1, ih2]
    · simp only [htf, if_false] at h1
      cases hvl : visitLoad E ds ext v with
      | none => simp [List.filterMap_cons, hvl, List.filter_cons, htf, ih2]
      | some d => rw [hvl] at h1; simp at h1

theorem foldl_associate_congr (E : Engine) (l : List (Str × Str)) (r1 r2 : TemplateSet)
    (h : r1.entries = r2.entries) :
    (l.foldl (TemplateSet.associate E) r1).entries =
      (l.foldl (TemplateSet.associate E) r2).entries := by
  induction l generalizing r1 r2 with
  | nil => exact h
  | cons x l ih =>
    rw [List.foldl_cons, List.foldl_cons]
    apply ih
    unfold TemplateSet.associate
    rw [h]
    split <;> simp [h]

theorem define_entries (E : Engine) (root : TemplateSet) (d : Str × List (Str × Str))
    (hd : d.1 ≠ []) :
    (root.define E d).entries = (d.2.foldl (TemplateSet.associate E) root).entries := by
  unfold TemplateSet.define
  rw [if_neg (fun h => hd h.1)]
  exact foldl_associate_congr E d.2 _ _ rfl

mutual
theorem walk_state_invariant {σ : Type} (walkFn : WalkFunc σ) (P : σ → Prop)
    (hP : ∀ path arg s, P s → P (walkFn path arg s).1) :
    ∀ (node : Node) (path : Str) (s : σ), P s → P (walk walkFn path node s).1
  | .missing e, path, s, hs => by
    simp only [walk]; exact hP _ _ _ hs
  | .file mode data, path, s, hs => by
    simp only [walk]; exact hP _ _ _ hs
  | .dir readErr entries, path, s, hs => by
    simp only [walk]
    have h1 := hP path (.entry ⟨.dir, .error (.io 21)⟩ readErr) s hs
    rcases hw : walkFn path (.entry ⟨.dir, .error (.io 21)⟩ readErr) s
      with ⟨s1, _ | e⟩
    · rw [hw] at h1
      cases readErr with
      | some e => exact h1
      | none => exact walkEntries_state_invariant walkFn P hP entries path s1 h1
    · rw [hw] at h1
      exact h1
theorem walkEntries_state_invariant {σ : Type} (walkFn : WalkFunc σ) (P : σ → Prop)
    (hP : ∀ path arg s, P s → P (walkFn path arg s).1) :
    ∀ (entries : Entries) (path : Str) (s : σ), P s → P (walkEntries walkFn path entries s).1
  | .nil, path, s, hs => by simp only [walkEntries]; exact hs
  | .cons name node rest, path, s, hs => by
    simp only [walkEntries]
    have h1 := walk_state_invariant walkFn P hP node (Join path name) s hs
    rcases hw : walk walkFn (Join path name) node s with ⟨s1, _ | e⟩
    · rw [hw] at h1
      exact walkEntries_state_invariant walkFn P hP rest path s1 h1
    · rw [hw] at h1
      exact h1
end

theorem HasSuffix_iff (s e : Str) : HasSuffix s e = true ↔ ∃ a, s = a ++ e := by
  constructor
  · intro h
    simp only [HasSuffix, Bool.and_eq_true, decide_eq_true_eq, beq_iff_eq] at h
    refine ⟨s.take (s.length - e.length), ?_⟩
    conv_lhs => rw [← List.take_append_drop (s.length - e.length) s]
    rw [h.2]
  · rintro ⟨a, rfl⟩
    exact HasSuffix_append a e

theorem Ext_eq_iff_suffix (e path : Str) (hdot : '.' ∉ e) (hsep : Separator ∉ e) :
    Ext path = '.' :: e ↔ HasSuffix path ('.' :: e) = true := by
  rw [HasSuffix_iff]
  constructor
  · intro h
    obtain ⟨stem, hs⟩ := Ext_suffix path
    exact ⟨stem, by rw [← h]; exact hs⟩
  · rintro ⟨a, rfl⟩
    exact Ext_of_suffix a e hdot hsep

theorem walkFunc_no_dot (E : Engine) (t : Template) (hne : t.ext ≠ [])
    (hdot : t.ext.head? ≠ some '.') (path : Str) (arg : WalkArg) (root : TemplateSet) :
    (walkFunc E t path arg root).1 = root := by
  have hext : Ext path ≠ t.ext := by
    intro h
    rcases Ext_head path with h1 | h1
    · exact hne (by rw [← h, h1])
    · exact hdot (by rw [← h, h1])
  cases arg with
  | failed e => rfl
  | entry info err =>
    cases err with
    | some e => rfl
    | none => rw [walkFunc_skip E t path info root (Or.inr hext)]

/-- The extension is compared literally with what `filepath.Ext` computes, which is
empty or starts with a dot: with a non-empty configured extension that lacks the dot no
call of the callback changes the set and a successful `Load` installs no entry; with
`.html` the filter passes exactly the paths that end in `.html`. -/
theorem walk_extension_literal (E : Engine) (fs : Node) (t : Template) (hne : t.ext ≠ [])
    (hdot : t.ext.head? ≠ some '.') :
    (∀ path arg root, (walkFunc E t path arg root).1 = root) ∧
    (Walk t.dir fs (walkFunc E t) TemplateSet.empty).1 = TemplateSet.empty ∧
    (∀ t1, Load E fs t = (t1, none) → ∃ root, t1.template = some root ∧ root.entries = []) ∧
    (∀ path : Str, Ext path = ".html".toList ↔ HasSuffix path ".html".toList = true) := by
  have h1 : ∀ path arg root, (walkFunc E t path arg root).1 = root :=
    fun path arg root => walkFunc_no_dot E t hne hdot path arg root
  have h2 : (Walk t.dir fs (walkFunc E t) TemplateSet.empty).1 = TemplateSet.empty :=
    walk_state_invariant (walkFunc E t) (fun s => s = TemplateSet.empty)
      (fun path arg s hs => by rw [h1]; exact hs) fs t.dir TemplateSet.empty rfl
  refine ⟨h1, h2, ?_, ?_⟩
  · intro t1 hl
    rcases hW : Walk t.dir fs (walkFunc E t) TemplateSet.empty with ⟨r, _ | e⟩
    · rw [hW] at h2
      simp only at h2
      subst h2
      simp only [Load, hW, Prod.mk.injEq, and_true] at hl
      rw [← hl]
      cases t.funcs with
      | some funcs => exact ⟨_, rfl, rfl⟩
      | none => exact ⟨_, rfl, rfl⟩
    · simp [Load, hW] at hl
  · intro path
    exact Ext_eq_iff_suffix "html".toList path (by decide) (by decide)

/-- C7: on the directory with the regular files `-a.html` and `.html`, both ending in
`.html`, the registry configured with `.html` loads successfully and installs no
template at all: the file `.html` derives the empty name and resets the root. With
`html` nothing is loaded either. -/
theorem Load_dot_html_installs_nothing :
    (Load miniEngine dotHtmlTree ⟨none, "/tmp/views".toList, ".html".toList, none⟩).2 = none ∧
    (Load miniEngine dotHtmlTree
        ⟨none, "/tmp/views".toList, ".html".toList, none⟩).1.template =
      some ⟨[], [], [], false⟩ ∧
    ((dotHtmlTree.visits []).filter
        (isTemplateFile ["tmp".toList, "views".toList] ".html".toList)).map
      (fun v => pathOf (["tmp".toList, "views".toList] ++ v.1)) =
      ["/tmp/views/-a.html".toList, "/tmp/views/.html".toList] ∧
    (Load miniEngine dotHtmlTree
        ⟨none, "/tmp/views".toList, "html".toList, none⟩).1.template =
      some ⟨[], [], [], true⟩ ∧
    (Load miniEngine mixedTree ⟨none, "/tmp/views".toList, "html".toList, none⟩).1.template =
      some ⟨[], [], [], true⟩ ∧
    (Load miniEngine mixedTree ⟨none, "/tmp/views".toList, ".html".toList, none⟩).1.template =
      some ⟨[("a".toList, "<p>a</p>".toList)], [], [], true⟩ := by
  refine ⟨by decide, by decide, by decide, by decide, by decide, by decide⟩

/-! ## Distinct files, distinct names -/

mutual
theorem node_visits_prefix :
    ∀ (node : Node) (cs : List Str), ∀ v ∈ node.visits cs, cs <+: v.1
  | .missing e, cs, v, hv => by
    simp only [Node.visits, List.mem_singleton] at hv
    subst hv; exact List.prefix_refl _
  | .file mode data, cs, v, hv => by
    simp only [Node.visits, List.mem_singleton] at hv
    subst hv; exact List.prefix_refl _
  | .dir readErr entries, cs, v, hv => by
    simp only [Node.visits, List.mem_cons] at hv
    rcases hv with hv | hv
    · subst hv; exact List.prefix_refl _
    · cases readErr with
      | some e => simp at hv
      | none =>
        obtain ⟨n, _, hn⟩ := entries_visits_prefix entries cs v hv
        exact List.IsPrefix.trans (List.prefix_append cs [n]) hn
theorem entries_visits_prefix :
    ∀ (entries : Entries) (cs : List Str), ∀ v ∈ entries.visits cs,
      ∃ n ∈ entries.names, (cs ++ [n]) <+: v.1
  | .nil, cs, v, hv => by simp [Entries.visits] at hv
  | .cons name node rest, cs, v, hv => by
    simp only [Entries.visits, List.mem_append] at hv
    rcases hv with hv | hv
    · exact ⟨name, by simp [Entries.names], node_visits_prefix node (cs ++ [name]) v hv⟩
    · obtain ⟨n, hn, hp⟩ := entries_visits_prefix rest cs v hv
      exact ⟨n, by simp [Entries.names, hn], hp⟩
end

theorem prefix_snoc_eq (cs xs : List Str) (a b : Str) (ha : (cs ++ [a]) <+: xs)
    (hb : (cs ++ [b]) <+: xs) : a = b := by
  obtain ⟨r1, h1⟩ := ha
  obtain ⟨r2, h2⟩ := hb
  rw [← h2] at h1
  simp only [List.append_assoc, List.singleton_append] at h1
  have := List.append_cancel_left h1
  simp only [List.cons.injEq] at this
  exact this.1

theorem prefix_snoc_ne (cs xs : List Str) (a : Str) (ha : (cs ++ [a]) <+: xs) : xs ≠ cs := by
  intro h
  obtain ⟨r, hr⟩ := ha
  have := congrArg List.length hr
  rw [h] at this
  simp at this

mutual
theorem node_visits_nodup :
    ∀ (node : Node) (cs : List Str), node.wf = true → ((node.visits cs).map Prod.fst).Nodup
  | .missing e, cs, _ => by simp [Node.visits]
  | .file mode data, cs, _ => by simp [Node.visits]
  | .dir readErr entries, cs, hwf => by
    cases readErr with
    | some e => simp [Node.visits]
    | none =>
      simp only [Node.visits, List.map_cons, List.nodup_cons]
      refine ⟨?_, entries_visits_nodup entries cs (by simpa [Node.wf] using hwf)⟩
      intro hmem
      obtain ⟨v, hv, hv1⟩ := List.mem_map.1 hmem
      obtain ⟨n, _, hp⟩ := entries_visits_prefix entries cs v hv
      exact prefix_snoc_ne cs v.1 n hp hv1
theorem entries_visits_nodup :
    ∀ (entries : Entries) (cs : List Str), entries.wf = true →
      ((entries.visits cs).map Prod.fst).Nodup
  | .nil, cs, _ => by simp [Entries.visits]
  | .cons name node rest, cs, hwf => by
    simp only [Entries.wf, Bool.and_eq_true, decide_eq_true_eq] at hwf
    obtain ⟨⟨⟨_, hnotin⟩, hnode⟩, hrest⟩ := hwf
    simp only [Entries.visits, List.map_append]
    rw [List.nodup_append]
    refine ⟨node_visits_nodup node (cs ++ [name]) hnode, entries_visits_nodup rest cs hrest, ?_⟩
    intro x hx1 hx2
    obtain ⟨v1, hv1, rfl⟩ := List.mem_map.1 hx1
    obtain ⟨v2, hv2, h12⟩ := List.mem_map.1 hx2
    have p1 := node_visits_prefix node (cs ++ [name]) v1 hv1
    obtain ⟨n, hn, p2⟩ := entries_visits_prefix rest cs v2 hv2
    rw [h12] at p2
    have := prefix_snoc_eq cs v1.1 name n p1 p2
    exact hnotin (by rw [this]; exact hn)
end

theorem restOf_snoc (xs : List Str) (n : Str) : ∃ pre, restOf (xs ++ [n]) = pre ++ n := by
  by_cases h : xs = []
  · subst h; exact ⟨[], by simp [restOf]⟩
  · exact ⟨restOf xs ++ [Separator], by rw [restOf_append_single xs n h]; simp⟩

theorem Ext_pathOf_snoc (xs : List Str) (n : Str) (hn : Separator ∉ n) :
    Ext (pathOf (xs ++ [n])) = Ext n := by
  by_cases h : xs = []
  · subst h
    have := Ext_sep [] n hn
    simpa [pathOf, restOf] using this
  · have := Ext_sep (Separator :: restOf xs) n hn
    rw [pathOf, restOf_append_single xs n h]
    simpa using this

/-- The configured extension ends the relative path of every template file below the
root. -/
theorem relOf_suffix (ds cs : List Str) (ext : Str) (hcs : ∀ c ∈ cs, ValidName c)
    (hne : cs ≠ []) (hext : Ext (pathOf (ds ++ cs)) = ext) : ∃ a, relOf cs = a ++ ext := by
  obtain ⟨xs, n, rfl⟩ : ∃ xs n, cs = xs ++ [n] :=
    ⟨cs.dropLast, cs.getLast hne, (List.dropLast_append_getLast hne).symm⟩
  have hn : ValidName n := hcs n (by simp)
  rw [← List.append_assoc, Ext_pathOf_snoc _ n hn.2.1] at hext
  obtain ⟨stem, hstem⟩ := Ext_suffix n
  obtain ⟨pre, hpre⟩ := restOf_snoc xs n
  refine ⟨pre ++ stem, ?_⟩
  simp only [relOf, hne, if_false, hpre]
  rw [List.append_assoc, ← hext, ← hstem]

theorem isTemplateFile_entry (ds : List Str) (ext : Str) (v : List Str × WalkArg)
    (h : isTemplateFile ds ext v = true) :
    ∃ info, v.2 = .entry info none ∧ info.IsRegular = true ∧
      Ext (pathOf (ds ++ v.1)) = ext := by
  obtain ⟨cs, arg⟩ := v
  cases arg with
  | failed e => simp [isTemplateFile] at h
  | entry info err =>
    cases err with
    | some e => simp [isTemplateFile] at h
    | none =>
      simp only [isTemplateFile, Bool.and_eq_true, decide_eq_true_eq] at h
      exact ⟨info, rfl, h.1, h.2⟩

theorem templateName_inj_entries (entries : Entries) (ds : List Str) (ext : Str)
    (hwf : entries.wf = true) (v1 v2 : List Str × WalkArg)
    (h1 : v1 ∈ entries.visits []) (h2 : v2 ∈ entries.visits [])
    (e1 : Ext (pathOf (ds ++ v1.1)) = ext) (e2 : Ext (pathOf (ds ++ v2.1)) = ext)
    (hname : templateName ext v1.1 = templateName ext v2.1) : v1.1 = v2.1 := by
  have hval := entries_visits_valid entries [] hwf (by simp)
  have hne : ∀ v ∈ entries.visits [], v.1 ≠ [] := by
    intro v hv
    obtain ⟨n, _, hp⟩ := entries_visits_prefix entries [] v hv
    exact prefix_snoc_ne [] v.1 n hp
  have s1 := relOf_suffix ds v1.1 ext (hval v1 h1) (hne v1 h1) e1
  have s2 := relOf_suffix ds v2.1 ext (hval v2 h2) (hne v2 h2) e2
  have hrel := TrimSuffix_inj _ _ ext s1 s2 hname
  simp only [relOf, hne v1 h1, hne v2 h2, if_false] at hrel
  exact restOf_injective _ _ (hval v1 h1) (hval v2 h2) hrel

/-- Template files of one tree with the same derived name are the same file, and the
derived names in walk order have no repetition. -/
theorem templateName_nodup (fs : Node) (ds : List Str) (ext : Str) (hwf : fs.wf = true) :
    (∀ v1 ∈ fs.visits [], ∀ v2 ∈ fs.visits [], isTemplateFile ds ext v1 = true →
      isTemplateFile ds ext v2 = true → templateName ext v1.1 = templateName ext v2.1 →
      v1 = v2) ∧
    (((fs.visits []).filter (isTemplateFile ds ext)).map
      (fun v => templateName ext v.1)).Nodup := by
  have hnd := node_visits_nodup fs [] hwf
  have hinj : ∀ v1 ∈ fs.visits [], ∀ v2 ∈ fs.visits [], isTemplateFile ds ext v1 = true →
      isTemplateFile ds ext v2 = true → templateName ext v1.1 = templateName ext v2.1 →
      v1 = v2 := by
    intro v1 h1 v2 h2 t1 t2 hname
    cases fs with
    | missing e =>
      simp only [Node.visits, List.mem_singleton] at h1 h2
      rw [h1, h2]
    | file mode data =>
      simp only [Node.visits, List.mem_singleton] at h1 h2
      rw [h1, h2]
    | dir readErr entries =>
      obtain ⟨i1, a1, r1, e1⟩ := isTemplateFile_entry ds ext v1 t1
      obtain ⟨i2, a2, r2, e2⟩ := isTemplateFile_entry ds ext v2 t2
      simp only [Node.visits, List.mem_cons] at h1 h2
      have hroot : ∀ (v : List Str × WalkArg) (i : FileInfo), v.2 = .entry i none →
          i.IsRegular = true →
          v ≠ ([], .entry ⟨.dir, .error (.io 21)⟩ readErr) := by
        intro v i hv hi heq
        rw [heq] at hv
        simp only [WalkArg.entry.injEq] at hv
        rw [← hv.1] at hi
        simp [FileInfo.IsRegular] at hi
      rcases h1 with h1 | h1
      · exact absurd h1 (hroot v1 i1 a1 r1)
      rcases h2 with h2 | h2
      · exact absurd h2 (hroot v2 i2 a2 r2)
      cases readErr with
      | some e => simp at h1
      | none =>
        simp only at h1 h2
        have hfst := templateName_inj_entries entries ds ext (by simpa [Node.wf] using hwf)
          v1 v2 h1 h2 e1 e2 hname
        have hm1 : v1 ∈ Node.visits [] (.dir none entries) := by
          simp [Node.visits, h1]
        have hm2 : v2 ∈ Node.visits [] (.dir none entries) := by
          simp [Node.visits, h2]
        exact List.inj_on_of_nodup_map hnd hm1 hm2 hfst
  refine ⟨hinj, ?_⟩
  have hnd2 : (fs.visits []).Nodup := List.Nodup.of_map _ hnd
  apply List.Nodup.map_on _ (hnd2.filter _)
  intro x hx y hy hxy
  rw [List.mem_filter] at hx hy
  exact hinj x hx.1 y hy.1 hx.2 hy.2 hxy


theorem pairTree_visits (html : Str) (txt : Except Error Str) :
    (pairTree html txt).visits [] =
      [([], .entry ⟨.dir, .error (.io 21)⟩ none),
       (["a.html".toList], .entry ⟨.regular, .ok html⟩ none),
       (["a.txt".toList], .entry ⟨.regular, txt⟩ none)] := rfl

/-- On a directory with `a.html` and `a.txt` and the extension `.html`, `Load` installs
what parsing the text of `a.html` under the name `a` gives, whatever `a.txt` holds. -/
theorem Load_pairTree (E : Engine) (t : Template) (ds : List Str)
    (hdir : t.dir = pathOf ds) (hds : ∀ c ∈ ds, ValidName c) (hext : t.ext = ".html".toList)
    (html : Str) (txt : Except Error Str) (trees : List (Str × Str))
    (hparse : E.parse [] "a".toList html = .ok trees) :
    ∃ root, Load E (pairTree html txt) t = ({ t with template := some root }, none) ∧
      root.entries = (trees.foldl (TemplateSet.associate E) TemplateSet.empty).entries := by
  obtain ⟨tp, dir, ext, funcs⟩ := t
  simp only at hext hdir
  subst hext
  have hwf : (pairTree html txt).wf = true := rfl
  have e1 : Ext (pathOf (ds ++ ["a.html".toList])) = ".html".toList := by
    rw [Ext_pathOf_snoc ds _ (by decide)]; decide
  have e2 : Ext (pathOf (ds ++ ["a.txt".toList])) ≠ ".html".toList := by
    rw [Ext_pathOf_snoc ds _ (by decide)]; decide
  have hname : templateName ".html".toList ["a.html".toList] = "a".toList := by decide
  have t1 : isTemplateFile ds ".html".toList ([], .entry ⟨.dir, .error (.io 21)⟩ none) = false := by
    unfold isTemplateFile; rfl
  have t2 : isTemplateFile ds ".html".toList
      (["a.html".toList], .entry ⟨.regular, .ok html⟩ none) = true := by
    unfold isTemplateFile
    simp only [e1, decide_True, Bool.and_true]
    rfl
  have t3 : isTemplateFile ds ".html".toList (["a.txt".toList], .entry ⟨.regular, txt⟩ none) = false := by
    unfold isTemplateFile
    simp only [e2, decide_False, Bool.and_false]
  have v1 : visitError E ds ".html".toList ([], .entry ⟨.dir, .error (.io 21)⟩ none) = none := by
    unfold visitError; simp only [t1]; rfl
  have v2 : visitError E ds ".html".toList (["a.html".toList], .entry ⟨.regular, .ok html⟩ none) =
      none := by
    unfold visitError
    simp only [t2, if_true, hname, parseError, hparse]
  have v3 : visitError E ds ".html".toList (["a.txt".toList], .entry ⟨.regular, txt⟩ none) = none := by
    unfold visitError; simp only [t3]; rfl
  have l1 : visitLoad E ds ".html".toList ([], .entry ⟨.dir, .error (.io 21)⟩ none) = none := by
    unfold visitLoad; simp only [t1]; rfl
  have l2 : visitLoad E ds ".html".toList (["a.html".toList], .entry ⟨.regular, .ok html⟩ none) =
      some ("a".toList, trees) := by
    unfold visitLoad
    simp only [t2, if_true, hname, hparse]
  have l3 : visitLoad E ds ".html".toList (["a.txt".toList], .entry ⟨.regular, txt⟩ none) = none := by
    unfold visitLoad; simp only [t3]; rfl
  have hdef : (TemplateSet.empty.define E ("a".toList, trees)).entries =
      (trees.foldl (TemplateSet.associate E) TemplateSet.empty).entries :=
    define_entries E TemplateSet.empty ("a".toList, trees)
      (by show "a".toList ≠ []; decide)
  rw [Load_spec E (pairTree html txt) _ ds hdir hds hwf, pairTree_visits]
  simp only [List.findSome?_cons, v1, v2, v3, List.findSome?_nil, List.filterMap_cons, l1, l2,
    l3, List.filterMap_nil, List.foldl_cons, List.foldl_nil]
  cases funcs with
  | some funcs => exact ⟨_, rfl, by simpa [TemplateSet.Funcs] using hdef⟩
  | none => exact ⟨_, rfl, hdef⟩

/-- C2: a successful `Load` holds only templates that the text of a plain regular file
with the configured extension (computed from its path) gives rise to; an entry of the
walk that is not a regular file or has another extension is skipped without error and
without touching the set; and on a directory with `a.html` and `a.txt`, the extension
`.html` installs what the text of `a.html` parsed under the name `a` defines, whatever
`a.txt` holds: exactly the entry `a` when that text defines no other template. -/
theorem Load_skips_other_entries (E : Engine) (fs : Node) (t t1 : Template) (ds : List Str)
    (hdir : t.dir = pathOf ds) (hds : ∀ c ∈ ds, ValidName c) (hwf : fs.wf = true)
    (hload : Load E fs t = (t1, none)) :
    (∃ root, t1.template = some root ∧
      ∀ e ∈ root.entries, ∃ cs info text trees,
        (cs, WalkArg.entry info none) ∈ fs.visits [] ∧
        info.IsRegular = true ∧ Ext (pathOf (ds ++ cs)) = t.ext ∧ info.data = .ok text ∧
        E.parse [] (TrimSuffix (relOf cs) t.ext) text = .ok trees ∧ e ∈ trees) ∧
    (∀ path info root, (info.IsRegular = false ∨ Ext path ≠ t.ext) →
      walkFunc E t path (.entry info none) root = (root, none)) ∧
    (∀ (html : Str) (txt : Except Error Str) (trees : List (Str × Str)),
      t.ext = ".html".toList → E.parse [] "a".toList html = .ok trees →
      ∃ root, Load E (pairTree html txt) t = ({ t with template := some root }, none) ∧
        root.entries = (trees.foldl (TemplateSet.associate E) TemplateSet.empty).entries) ∧
    (∀ body : Str,
      ([("a".toList, body)].foldl (TemplateSet.associate E) TemplateSet.empty).entries =
        [("a".toList, body)]) := by
  refine ⟨Load_entries_origin E fs t t1 ds hdir hds hwf hload,
    fun path info root h => walkFunc_skip E t path info root h,
    fun html txt trees hext hparse => Load_pairTree E t ds hdir hds hext html txt trees hparse,
    ?_⟩
  intro body
  simp [TemplateSet.associate, TemplateSet.empty]

theorem Load_skips_other_entries_witness :
    walkFunc miniEngine ⟨none, "/tmp/views".toList, ".html".toList, none⟩
        "/tmp/views/a.txt".toList (.entry ⟨.regular, .ok "a".toList⟩ none) TemplateSet.empty =
      (TemplateSet.empty, none) :=
  (Load_skips_other_entries miniEngine mixedTree
    ⟨none, "/tmp/views".toList, ".html".toList, none⟩
    (Load miniEngine mixedTree ⟨none, "/tmp/views".toList, ".html".toList, none⟩).1
    ["tmp".toList, "views".toList] (by decide) (by decide) (by decide) (by decide)).2.1
    "/tmp/views/a.txt".toList ⟨.regular, .ok "a".toList⟩ TemplateSet.empty
    (Or.inr (by decide))

/-- Two entries from one file: on the directory with `a.txt` and `a.html`, where the text of
`a.html` defines a second template `extra`, the extension `.html` yields two entries,
`a` and `extra`. -/
theorem Load_define_two_entries :
    (Load miniEngine defineTree ⟨none, "/tmp/views".toList, ".html".toList, none⟩).2 = none ∧
    (Load miniEngine defineTree ⟨none, "/tmp/views".toList, ".html".toList, none⟩).1.template =
      some ⟨[("a".toList, "A".toList), ("extra".toList, "X".toList)], [], [], true⟩ ∧
    ¬ ((Load miniEngine defineTree
        ⟨none, "/tmp/views".toList, ".html".toList, none⟩).1.template.map
          (fun r => r.entries.map Prod.fst) = some ["a".toList]) := by
  refine ⟨by decide, by decide, by decide⟩


/-! ## Helper functions and the empty name -/

/-- The helper mapping of the registry plays no part in the walk: whether `Load` fails,
and with which error, is the same whatever helpers are registered. -/
theorem Load_error_ignores_funcs (E : Engine) (fs : Node) (t : Template)
    (m : Option (List Str)) : (Load E fs { t with funcs := m }).2 = (Load E fs t).2 := by
  have hw : walkFunc E { t with funcs := m } = walkFunc E t := rfl
  rcases hW : Walk t.dir fs (walkFunc E t) TemplateSet.empty with ⟨r, _ | e⟩ <;>
    simp [Load, hw, hW]

/-- C5: after `Funcs` has registered the helper `upper` on the loaded registry of the
scenario, `Load` of a directory whose template calls `upper` returns the error
"function upper not defined" and leaves the registry as it was: the helpers are attached
to the new set only after every file has been parsed. -/
theorem Load_after_Funcs_undefined :
    (viewsRegistry.Funcs (some ["upper".toList])).map
        (fun t => (Load miniEngine helperTree t).2) =
      some (some (.undefinedFunc "upper".toList)) ∧
    (viewsRegistry.Funcs (some ["upper".toList])).map
        (fun t => decide ((Load miniEngine helperTree t).1 = t)) = some true ∧
    (viewsRegistry.Funcs (some ["upper".toList])).map (fun t => t.funcs) =
      some (some ["upper".toList]) := by
  refine ⟨by decide, by decide, by decide⟩

theorem visitLoad_name_ne (E : Engine) (ds : List Str) (ext : Str)
    (vs : List (List Str × WalkArg))
    (hnonempty : ∀ v ∈ vs, isTemplateFile ds ext v = true → templateName ext v.1 ≠ []) :
    ∀ d ∈ vs.filterMap (visitLoad E ds ext), d.1 ≠ [] := by
  intro d hd
  obtain ⟨v, hv, hvl⟩ := List.mem_filterMap.1 hd
  obtain ⟨info, text, h1, h2, h3, h4, _, _⟩ := visitLoad_some E ds ext v d hvl
  have htf : isTemplateFile ds ext v = true := by
    obtain ⟨cs, arg⟩ := v
    simp only at h1
    subst h1
    simp [isTemplateFile, h2, h3]
  rw [h4]
  exact hnonempty v hv htf

/-- The set a successful `Load` installs, read off the visits of the tree. -/
theorem Load_ok_template (E : Engine) (fs : Node) (t t1 : Template) (ds : List Str)
    (hdir : t.dir = pathOf ds) (hds : ∀ c ∈ ds, ValidName c) (hwf : fs.wf = true)
    (hload : Load E fs t = (t1, none)) :
    (∀ v ∈ fs.visits [], visitError E ds t.ext v = none) ∧
    ∃ root, t1.template = some root ∧
      root.entries = (((fs.visits []).filterMap (visitLoad E ds t.ext)).foldl
        (TemplateSet.define E) TemplateSet.empty).entries := by
  rw [Load_spec E fs t ds hdir hds hwf] at hload
  cases hf : (fs.visits []).findSome? (visitError E ds t.ext) with
  | some e => rw [hf] at hload; simp at hload
  | none =>
    rw [hf] at hload
    simp only [Prod.mk.injEq, and_true] at hload
    refine ⟨List.findSome?_eq_none_iff.1 hf, ?_⟩
    rw [← hload]
    cases t.funcs with
    | some funcs => exact ⟨_, rfl, rfl⟩
    | none => exact ⟨_, rfl, rfl⟩

/-- Apart from the empty name and from texts that define a template of a name defined
elsewhere: the set a successful `Load` installs then lists every template that the text
of a template file gives rise to, the most recently defined first. -/
theorem Load_entries_exact (E : Engine) (fs : Node) (t t1 : Template) (ds : List Str)
    (hdir : t.dir = pathOf ds) (hds : ∀ c ∈ ds, ValidName c) (hwf : fs.wf = true)
    (hload : Load E fs t = (t1, none))
    (hnonempty : ∀ v ∈ fs.visits [], isTemplateFile ds t.ext v = true →
      templateName t.ext v.1 ≠ [])
    (hnd : ((((fs.visits []).filterMap (visitLoad E ds t.ext)).map Prod.snd).flatten.map
      Prod.fst).Nodup) :
    ∃ root, t1.template = some root ∧
      root.entries =
        (((fs.visits []).filterMap (visitLoad E ds t.ext)).map Prod.snd).flatten.reverse := by
  obtain ⟨_, root, hroot, hent⟩ := Load_ok_template E fs t t1 ds hdir hds hwf hload
  refine ⟨root, hroot, ?_⟩
  rw [hent, foldl_define_entries E _ TemplateSet.empty
    (visitLoad_name_ne E ds t.ext _ hnonempty) hnd
    (fun _ _ _ _ h => absurd h (List.not_mem_nil _))]
  simp [TemplateSet.empty]

/-- C1: on the directory with the regular files `-a.txt` and `.txt`, both with the
configured extension `.txt` and both valid templates, `Load` succeeds and installs a
set without any entry: the file named `.txt` derives the empty name, the name of the
root template itself, so `New` resets the root and the template loaded before is lost;
neither `-a` nor the empty name can be rendered afterwards. -/
theorem Load_empty_name_resets :
    (Load miniEngine dotTree ⟨none, "/tmp/views".toList, ".txt".toList, none⟩).2 = none ∧
    (Load miniEngine dotTree ⟨none, "/tmp/views".toList, ".txt".toList, none⟩).1.template =
      some ⟨[], [], [], false⟩ ∧
    ((dotTree.visits []).filter
        (isTemplateFile ["tmp".toList, "views".toList] ".txt".toList)).map
      (fun v => templateName ".txt".toList v.1) = ["-a".toList, []] ∧
    (Load miniEngine dotTree ⟨none, "/tmp/views".toList, ".txt".toList, none⟩).1.Render
        miniEngine [] "-a".toList [] = some ([], some (.noTemplate "-a".toList)) ∧
    (Load miniEngine dotTree ⟨none, "/tmp/views".toList, ".txt".toList, none⟩).1.Render
        miniEngine [] [] [] = some ([], some (.noTemplate [])) := by
  refine ⟨by decide, by decide, by decide, by decide, by decide⟩

/-! ## Distinct names, replacement and walk order -/

theorem perm_visits_run (E : Engine) (fs : Node) (t : Template) (ds : List Str)
    (hdir : t.dir = pathOf ds) (hds : ∀ c ∈ ds, ValidName c) (hwf : fs.wf = true)
    (herr : ∀ v ∈ fs.visits [], visitError E ds t.ext v = none)
    (hnonempty : ∀ v ∈ fs.visits [], isTemplateFile ds t.ext v = true →
      templateName t.ext v.1 ≠ [])
    (vs : List (List Str × WalkArg)) (hperm : vs.Perm (fs.visits [])) :
    (runVisits (walkFunc E t) ds vs TemplateSet.empty).2 = none ∧
    ∀ name, name ∈ (runVisits (walkFunc E t) ds vs TemplateSet.empty).1.entries.map Prod.fst ↔
      ∃ d ∈ (fs.visits []).filterMap (visitLoad E ds t.ext), name ∈ d.2.map Prod.fst := by
  have hvalid : ∀ v ∈ vs, ∀ c ∈ v.1, ValidName c := fun v hv =>
    node_visits_valid fs [] hwf (by simp) v (hperm.mem_iff.1 hv)
  have herr2 : ∀ v ∈ vs, visitError E ds t.ext v = none := fun v hv =>
    herr v (hperm.mem_iff.1 hv)
  have hf : vs.findSome? (visitError E ds t.ext) = none := List.findSome?_eq_none_iff.2 herr2
  obtain ⟨h1, h2⟩ := runVisits_walkFunc E t ds hdir hds vs hvalid TemplateSet.empty rfl
  refine ⟨by rw [h1, hf], ?_⟩
  intro name
  rw [h2 hf, foldl_define_names E _ TemplateSet.empty name
    (visitLoad_name_ne E ds t.ext vs
      (fun v hv => hnonempty v (hperm.mem_iff.1 hv)))]
  have hp : (vs.filterMap (visitLoad E ds t.ext)).Perm
      ((fs.visits []).filterMap (visitLoad E ds t.ext)) := hperm.filterMap _
  constructor
  · rintro (⟨d, hd, hn⟩ | h)
    · exact ⟨d, hp.mem_iff.1 hd, hn⟩
    · simp [TemplateSet.empty] at h
  · rintro ⟨d, hd, hn⟩
    exact Or.inl ⟨d, hp.mem_iff.2 hd, hn⟩

/-- C10: two template files (regular files that pass the extension filter) with the same
derived name are the same file, so the names handed to `New` in one `Load` pass have no
repetition. After a successful `Load` on a tree where no file derives the empty name, the
installed names are exactly the names of the templates that the texts of the template
files give rise to; running the callback over the entries in any other order succeeds
too and installs the same names; and when no two of these templates share a name, every
one of them is installed and none is replaced. -/
theorem Load_names_distinct (E : Engine) (fs : Node) (t : Template) (ds : List Str)
    (hdir : t.dir = pathOf ds) (hds : ∀ c ∈ ds, ValidName c) (hwf : fs.wf = true) :
    (∀ v1 ∈ fs.visits [], ∀ v2 ∈ fs.visits [], isTemplateFile ds t.ext v1 = true →
      isTemplateFile ds t.ext v2 = true →
      templateName t.ext v1.1 = templateName t.ext v2.1 → v1 = v2) ∧
    (((fs.visits []).filter (isTemplateFile ds t.ext)).map
      (fun v => templateName t.ext v.1)).Nodup ∧
    (∀ t1, Load E fs t = (t1, none) →
      (∀ v ∈ fs.visits [], isTemplateFile ds t.ext v = true → templateName t.ext v.1 ≠ []) →
      ∃ root, t1.template = some root ∧
        (∀ name, name ∈ root.entries.map Prod.fst ↔
          ∃ d ∈ (fs.visits []).filterMap (visitLoad E ds t.ext), name ∈ d.2.map Prod.fst) ∧
        (∀ vs : List (List Str × WalkArg), vs.Perm (fs.visits []) →
          (runVisits (walkFunc E t) ds vs TemplateSet.empty).2 = none ∧
          ∀ name,
            name ∈ (runVisits (walkFunc E t) ds vs TemplateSet.empty).1.entries.map Prod.fst ↔
              name ∈ root.entries.map Prod.fst) ∧
        (((((fs.visits []).filterMap (visitLoad E ds t.ext)).map Prod.snd).flatten.map
            Prod.fst).Nodup →
          root.entries =
            (((fs.visits []).filterMap (visitLoad E ds t.ext)).map
              Prod.snd).flatten.reverse)) := by
  refine ⟨(templateName_nodup fs ds t.ext hwf).1, (templateName_nodup fs ds t.ext hwf).2, ?_⟩
  intro t1 hload hnonempty
  obtain ⟨herr, root, hroot, hent⟩ := Load_ok_template E fs t t1 ds hdir hds hwf hload
  have hnames : ∀ name, name ∈ root.entries.map Prod.fst ↔
      ∃ d ∈ (fs.visits []).filterMap (visitLoad E ds t.ext), name ∈ d.2.map Prod.fst := by
    intro name
    rw [hent, foldl_define_names E _ TemplateSet.empty name
      (visitLoad_name_ne E ds t.ext _ hnonempty)]
    constructor
    · rintro (h | h)
      · exact h
      · simp [TemplateSet.empty] at h
    · intro h; exact Or.inl h
  refine ⟨root, hroot, hnames, ?_, ?_⟩
  · intro vs hperm
    obtain ⟨h1, h2⟩ := perm_visits_run E fs t ds hdir hds hwf herr hnonempty vs hperm
    exact ⟨h1, fun name => (h2 name).trans (hnames name).symm⟩
  · intro hnd
    obtain ⟨root2, hroot2, hent2⟩ :=
      Load_entries_exact E fs t t1 ds hdir hds hwf hload hnonempty hnd
    rw [hroot] at hroot2
    simp only [Option.some.injEq] at hroot2
    rw [hroot2]; exact hent2

theorem Load_names_distinct_witness :
    (((viewsTree.visits []).filter
        (isTemplateFile ["tmp".toList, "views".toList] viewsRegistry.ext)).map
      (fun v => templateName viewsRegistry.ext v.1)).Nodup :=
  (Load_names_distinct miniEngine viewsTree viewsRegistry ["tmp".toList, "views".toList]
    (by decide) (by decide) (by decide)).2.1

/-- Replacement and walk order: on the directory with `b.txt` (text `B`) and `z.txt`, whose
text defines a template `b`, the installed template `b` is the one of `z.txt`; and the
files `-a.txt` and `.txt` install no name in one order and the name `-a` in the other. -/
theorem Load_define_replaces :
    (Load miniEngine overwriteTree ⟨none, "/tmp/views".toList, ".txt".toList, none⟩).2 = none ∧
    (Load miniEngine overwriteTree
        ⟨none, "/tmp/views".toList, ".txt".toList, none⟩).1.template =
      some ⟨[("z".toList, "Z".toList), ("b".toList, "X".toList)], [], [], true⟩ ∧
    (Load miniEngine dotTree
        ⟨none, "/tmp/views".toList, ".txt".toList, none⟩).1.template.map
          (fun r => r.entries.map Prod.fst) = some [] ∧
    (Load miniEngine dotTreeSwapped
        ⟨none, "/tmp/views".toList, ".txt".toList, none⟩).1.template.map
          (fun r => r.entries.map Prod.fst) = some ["-a".toList] := by
  refine ⟨by decide, by decide, by decide, by decide⟩

/-- C6: a successful `Load` installs a set that does not depend on the set active
before the call (any prior set gives the same registry); every name in it is the name of
a template that the text of a regular file of the current tree with the configured
extension gives rise to (the file's derived name or a name its text defines); and when
no file of the tree derives the empty name, the installed names are exactly those. -/
theorem Load_replaces_active_set (E : Engine) (fs : Node) (t t1 : Template)
    (ds : List Str) (hdir : t.dir = pathOf ds) (hds : ∀ c ∈ ds, ValidName c)
    (hwf : fs.wf = true) (hload : Load E fs t = (t1, none)) :
    (∀ prior, Load E fs { t with template := prior } = (t1, none)) ∧
    (∃ root, t1.template = some root ∧
      (∀ name ∈ root.entries.map Prod.fst,
        ∃ cs info text trees, (cs, WalkArg.entry info none) ∈ fs.visits [] ∧
          info.IsRegular = true ∧ Ext (pathOf (ds ++ cs)) = t.ext ∧ info.data = .ok text ∧
          E.parse [] (TrimSuffix (relOf cs) t.ext) text = .ok trees ∧
          name ∈ trees.map Prod.fst) ∧
      ((∀ v ∈ fs.visits [], isTemplateFile ds t.ext v = true →
          templateName t.ext v.1 ≠ []) →
        ∀ name, name ∈ root.entries.map Prod.fst ↔
          ∃ d ∈ (fs.visits []).filterMap (visitLoad E ds t.ext),
            name ∈ d.2.map Prod.fst)) := by
  constructor
  · intro prior
    rw [Load_prior, hload]
    simp
  · obtain ⟨root, hroot, h⟩ := Load_entries_origin E fs t t1 ds hdir hds hwf hload
    refine ⟨root, hroot, ?_, ?_⟩
    · intro name hname
      obtain ⟨e, he, rfl⟩ := List.mem_map.1 hname
      obtain ⟨cs, info, text, trees, h1, h2, h3, h4, h5, h6⟩ := h e he
      exact ⟨cs, info, text, trees, h1, h2, h3, h4, h5, List.mem_map_of_mem Prod.fst h6⟩
    · intro hnonempty name
      obtain ⟨_, root2, hroot2, hent⟩ := Load_ok_template E fs t t1 ds hdir hds hwf hload
      rw [hroot] at hroot2
      simp only [Option.some.injEq] at hroot2
      rw [hroot2, hent, foldl_define_names E _ TemplateSet.empty name
        (visitLoad_name_ne E ds t.ext _ hnonempty)]
      constructor
      · rintro (h1 | h1)
        · exact h1
        · exact absurd h1 (List.not_mem_nil _)
      · intro h1; exact Or.inl h1

theorem Load_replaces_active_set_witness :
    Load miniEngine mixedTree { viewsRegistry with template := none } =
      ((Load miniEngine mixedTree viewsRegistry).1, none) :=
  (Load_replaces_active_set miniEngine mixedTree viewsRegistry
    (Load miniEngine mixedTree viewsRegistry).1 ["tmp".toList, "views".toList]
    (by decide) (by decide) (by decide) (by decide)).1 none

/-- A name that no file derives: on the directory with `a.html` and `a.txt`, loaded with
`.html`, the installed names are `a` and `extra`, while the only name derived from a
regular file with the extension is `a`. -/
theorem Load_names_beyond_derived :
    (Load miniEngine defineTree
        ⟨none, "/tmp/views".toList, ".html".toList, none⟩).1.template.map
          (fun r => r.entries.map Prod.fst) = some ["a".toList, "extra".toList] ∧
    ((defineTree.visits []).filter
        (isTemplateFile ["tmp".toList, "views".toList] ".html".toList)).map
      (fun v => templateName ".html".toList v.1) = ["a".toList] := by
  refine ⟨by decide, by decide⟩

theorem Load_first_failure_witness :
    (Load miniEngine brokenTree viewsRegistry).2 =
      (brokenTree.visits []).findSome?
        (visitError miniEngine ["tmp".toList, "views".toList] viewsRegistry.ext) :=
  (Load_first_failure miniEngine brokenTree viewsRegistry ["tmp".toList, "views".toList]
    (by decide) (by decide) (by decide)).1

/-- The scenario of the specification: the registry built for `/tmp/views` with the
extension `.txt` renders `welcome` and `nested/bye` and has no template `missing`. -/
theorem scenario_views :
    NewTemplate miniEngine (worldWith viewsTree) "/tmp/views".toList ".txt".toList =
      .ok viewsRegistry ∧
    viewsRegistry.Render miniEngine [] "welcome".toList [("Name".toList, "Ann".toList)] =
      some ("Hello, Ann!".toList, none) ∧
    viewsRegistry.Render miniEngine [] "nested/bye".toList [("Name".toList, "Ann".toList)] =
      some ("Bye, Ann.".toList, none) ∧
    viewsRegistry.Render miniEngine [] "missing".toList [("Name".toList, "Ann".toList)] =
      some ([], some (.noTemplate "missing".toList)) := by
  refine ⟨by decide, by decide, by decide, by decide⟩

/-- The registry `NewTemplate` returns has a cleaned absolute directory. -/
theorem NewTemplate_dir (E : Engine) (w : World) (dir ext : Str) (t : Template)
    (hcwd : ∀ wd, w.cwd = .ok wd → IsAbs wd = true) (h : NewTemplate E w dir ext = .ok t) :
    ∃ ds, (∀ c ∈ ds, ValidName c) ∧ t.dir = pathOf ds := by
  unfold NewTemplate at h
  cases hab : Abs w.cwd dir with
  | error e => rw [hab] at h; simp at h
  | ok d =>
    rw [hab] at h
    simp only at h
    have hf := (Load_fields E (w.tree d) ⟨none, d, ext, none⟩).1
    rcases hl : Load E (w.tree d) ⟨none, d, ext, none⟩ with ⟨t1, _ | e⟩
    · rw [hl] at h hf
      simp only [Except.ok.injEq] at h
      subst h
      obtain ⟨ds, hds, hd⟩ := Abs_pathOf w.cwd dir d hcwd hab
      exact ⟨ds, hds, by rw [hf, hd]⟩
    · rw [hl] at h; simp at h

end Mailer
